import Mathlib

/-!
Verification of the recipe layer of `llm-compressor`
(`src/llmcompressor/recipe/recipe.py`).

The Python code is shallowly embedded: parsed JSON/YAML values become the
inductive type `Val`, Python dicts become insertion-ordered association
lists, raised exceptions become `Except PyErr`, and each Python function of
the source file becomes a Lean function of the same name.  The JSON and
YAML text parsers themselves (`json.loads`, `yaml.safe_load`) are external
library collaborators and are abstracted as functions
`String → Option Val` wherever they are needed.
-/

set_option autoImplicit false

namespace LlmCompressor

/-- Python-like values appearing in parsed JSON/YAML recipe dictionaries.
Mappings are insertion-ordered association lists, as Python dicts are. -/
inductive Val where
  | vNull : Val
  | vBool : Bool → Val
  | vInt : Int → Val
  | vStr : String → Val
  | vList : List Val → Val
  | vDict : List (String × Val) → Val

/-- First value bound to key `k` (Python `d[k]` / `d.get(k)`); association
lists built by the embedded dict operations never repeat a key. -/
def aGet? {α : Type} (d : List (String × α)) (k : String) : Option α :=
  match d with
  | [] => none
  | (k', v) :: rest => if k' = k then some v else aGet? rest k

/-- Python `k in d`. -/
def aContains {α : Type} (d : List (String × α)) (k : String) : Bool :=
  (aGet? d k).isSome

/-- Python `d[k] = v`: replace the value in place if the key exists
(keeping its position), else append the new binding at the end. -/
def aInsert {α : Type} (d : List (String × α)) (k : String) (v : α) :
    List (String × α) :=
  match d with
  | [] => [(k, v)]
  | (k', v') :: rest =>
    if k' = k then (k, v) :: rest else (k', v') :: aInsert rest k v

/-- Python `del d[k]`. -/
def aErase {α : Type} (d : List (String × α)) (k : String) :
    List (String × α) :=
  d.filter (fun kv => !(kv.1 == k))

/-- In-place update of the value bound to a key (Python
`d[k].append(...)` / `d[k][t] = v` style read-modify-write). -/
def aModify {α : Type} (d : List (String × α)) (k : String) (f : α → α) :
    List (String × α) :=
  match d with
  | [] => []
  | (k', v) :: rest =>
    if k' = k then (k', f v) :: rest else (k', v) :: aModify rest k f

/-- Python `d.update(d₂)`: insert every binding of `d₂` into `d₁` in order,
later bindings overwriting earlier ones on key collision. -/
def dictUpdate {α : Type} (d₁ d₂ : List (String × α)) : List (String × α) :=
  d₂.foldl (fun d kv => aInsert d kv.1 kv.2) d₁

/-- Python truthiness of a value. -/
def truthy : Val → Bool
  | .vNull => false
  | .vBool b => b
  | .vInt n => decide (n ≠ 0)
  | .vStr s => decide (s ≠ "")
  | .vList l => !l.isEmpty
  | .vDict d => !d.isEmpty

/-- Python `isinstance(v, dict)`. -/
def isDict : Val → Bool
  | .vDict _ => true
  | _ => false

/-- The exceptions the embedded recipe code can raise.  The spec's abstract
error taxonomy maps onto these: `MalformedStageError` is the
`AssertionError` of `extract_dict_stages`, `RecipeParseError` is the
`ValueError` of `_load_json_or_yaml_string`, `FrontMatterNotFoundError` is
the `RuntimeError` of `_parse_recipe_from_md`, `InvalidModifierError` is
the `ValueError` of `from_modifiers`.  `typeErr` stands for the
`TypeError`/`AttributeError` Python raises when a non-dict value is
subscript-assigned or iterated as a mapping, and `validation` for a
pydantic field-validation failure. -/
inductive PyErr where
  | malformedStage
  | typeErr
  | parseErr
  | invalidModifier
  | frontMatter
  | validation
deriving DecidableEq

/-- Python `s.endswith(suf)`. -/
def sEndsWith (s suf : String) : Bool := decide (suf.data <:+ s.data)

/-- Last `n` characters removed.  Used to embed Python
`s.rsplit(suf, 1)[0]` with `n = suf.length` at call sites where
`s.endswith(suf)` holds: there the last occurrence of `suf` in `s` is the
one at the very end, so splitting at it keeps exactly the first
`s.length - n` characters. -/
def sDropRight (s : String) (n : Nat) : String := ⟨s.data.take (s.data.length - n)⟩

/-! Basic lemmas about the dict operations. -/

theorem aGet?_nil {α : Type} (k : String) : aGet? ([] : List (String × α)) k = none := rfl

theorem aGet?_cons {α : Type} (k' : String) (v : α) (rest : List (String × α)) (k : String) :
    aGet? ((k', v) :: rest) k = if k' = k then some v else aGet? rest k := rfl

theorem aGet?_append {α : Type} (d₁ d₂ : List (String × α)) (k : String) :
    aGet? (d₁ ++ d₂) k =
      match aGet? d₁ k with
      | some v => some v
      | none => aGet? d₂ k := by
  induction d₁ with
  | nil => simp [aGet?]
  | cons kv rest ih =>
    obtain ⟨k', v⟩ := kv
    by_cases h : k' = k <;> simp [aGet?, h, ih]

theorem aGet?_aInsert {α : Type} (d : List (String × α)) (k : String) (v : α) (k' : String) :
    aGet? (aInsert d k v) k' = if k = k' then some v else aGet? d k' := by
  induction d with
  | nil => simp [aInsert, aGet?]
  | cons kv rest ih =>
    obtain ⟨k₀, v₀⟩ := kv
    by_cases h : k₀ = k
    · subst h
      by_cases h' : k₀ = k'
      · subst h'
        simp [aInsert, aGet?]
      · simp [aInsert, aGet?, h']
    · by_cases h' : k₀ = k'
      · subst h'
        have hkk : ¬ k = k₀ := fun hc => h hc.symm
        simp [aInsert, aGet?, h, hkk]
      · simp [aInsert, aGet?, h, h', ih]

theorem sEndsWith_append_self (g suf : String) : sEndsWith (g ++ suf) suf = true := by
  simp only [sEndsWith, String.data_append, decide_eq_true_eq]
  exact List.suffix_append _ _

theorem data_suffix_of_append_eq {g s t : String} (h : g ++ s = t) : s.data <:+ t.data := by
  rw [← h, String.data_append]
  exact List.suffix_append _ _

theorem append_ne_of_not_suffix {s t : String} (h : ¬ s.data <:+ t.data) (g : String) :
    g ++ s ≠ t := fun hc => h (data_suffix_of_append_eq hc)

theorem sEndsWith_append_eq_false {s t : String} (hlen : s.data.length ≤ t.data.length)
    (hns : ¬ s.data <:+ t.data) (g : String) : sEndsWith (g ++ s) t = false := by
  simp only [sEndsWith, String.data_append, decide_eq_false_iff_not]
  intro hsuf
  exact hns (List.suffix_of_suffix_length_le (List.suffix_append _ _) hsuf hlen)

theorem sDropRight_append (g s : String) : sDropRight (g ++ s) s.data.length = g := by
  apply String.ext
  show (String.data (g ++ s)).take ((String.data (g ++ s)).length - s.data.length) = g.data
  rw [String.data_append, List.length_append]
  have h : g.data.length + s.data.length - s.data.length = g.data.length := by omega
  rw [h, List.take_left]

theorem append_right_cancel_str {g₁ g₂ s : String} (h : g₁ ++ s = g₂ ++ s) : g₁ = g₂ := by
  apply String.ext
  have hd : g₁.data ++ s.data = g₂.data ++ s.data := by
    rw [← String.data_append, ← String.data_append, h]
  exact List.append_cancel_right hd

/-! The recipe data model (recipe.py:224-226 and the collaborating
`RecipeModifier`/`RecipeStage` records described in §3 of the spec). -/

/-- A modifier descriptor: `{type, group, args}`. -/
structure RecipeModifier where
  type : String
  group : String
  args : List (String × Val)

/-- A stage: `{group, run_type, modifiers}`. -/
structure RecipeStage where
  group : String
  run_type : Option String
  modifiers : List RecipeModifier

/-- The Recipe aggregate: `version: str = None`,
`args: Dict[str, Any] = {}`, `stages: List[RecipeStage] = []`
(recipe.py:224-226). -/
structure Recipe where
  version : Option String
  args : List (String × Val)
  stages : List RecipeStage

/-- One raw extracted modifier dict, as Python builds it:
`modifier = {mod_type: mod_args}; modifier["group"] = group`. -/
def rawModifier (t : String) (a : Val) (group : String) : Val :=
  Val.vDict (aInsert [(t, a)] "group" (Val.vStr group))

/-- All raw modifier dicts of one modifier-collection mapping, tagged with
one group. -/
def modsOfEntries (entries : List (String × Val)) (group : String) : List Val :=
  entries.map (fun ta => rawModifier ta.1 ta.2 group)

/-- The pass of `extract_dict_modifiers` over the keys ending in
`_modifiers`, in mapping order; iterating a non-dict value raises. -/
def extract_dict_modifiers_loop :
    List (String × Val) → Except PyErr (List Val × List String)
  | [] => .ok ([], [])
  | (k, v) :: rest =>
    if sEndsWith k "_modifiers" then
      match v with
      | .vDict entries =>
        match extract_dict_modifiers_loop rest with
        | .ok (ms, ks) => .ok (modsOfEntries entries (sDropRight k 10) ++ ms, k :: ks)
        | .error e => .error e
      | _ => .error .typeErr
    else extract_dict_modifiers_loop rest

/-- Modelled from the spec: `RecipeStage.extract_dict_modifiers`
(`llmcompressor/recipe/stage.py`, which is not among the provided source
files; only its call sites in recipe.py are).  Per §4.2 of the spec it
collects the flat modifier shorthands of a mapping: the bare `modifiers`
key contributes its entries with group `"default"` (shapes 1 and the
in-stage unqualified key of §8), and every key ending in `_modifiers`
contributes its entries with the group obtained by stripping that suffix
(shape 4); each consumed key is removed from the mapping.  A consumed
key's value must itself be a mapping from modifier type name to argument
mapping (iterating a non-dict raises, embedded as `typeErr`).  Mirroring
the guard style of `extract_dict_stages` in the provided source, the bare
`modifiers` key is only consumed when its value is truthy.
This definition is its first step, the bare-`modifiers`-key extraction. -/
def bareModifiersStep (values : List (String × Val)) :
    Except PyErr (List Val × List String) :=
  match aGet? values "modifiers" with
  | some v =>
    if truthy v then
      match v with
      | .vDict entries => .ok (modsOfEntries entries "default", ["modifiers"])
      | _ => .error .typeErr
    else .ok ([], [])
  | none => .ok ([], [])

/-- The whole extraction: bare-key step, suffix-key loop, then deletion of
the consumed keys; the extracted modifier dicts and the reduced mapping
are returned. -/
def extract_dict_modifiers (values : List (String × Val)) :
    Except PyErr (List Val × List (String × Val)) :=
  match bareModifiersStep values with
  | .error e => .error e
  | .ok (ms₀, rk₀) =>
    match extract_dict_modifiers_loop values with
    | .error e => .error e
    | .ok (ms₁, rk₁) => .ok (ms₀ ++ ms₁, (rk₀ ++ rk₁).foldl aErase values)

/-- The loop of `extract_dict_stages` over the entries of a truthy
`stages` mapping (recipe.py:350-353): assert each stage body is a dict,
set its `group` to the entry key, and collect it. -/
def stagesEntriesLoop : List (String × Val) → Except PyErr (List Val)
  | [] => .ok []
  | (k, v) :: rest =>
    match v with
    | .vDict body =>
      match stagesEntriesLoop rest with
      | .ok ss => .ok (Val.vDict (aInsert body "group" (Val.vStr k)) :: ss)
      | .error e => .error e
    | _ => .error .malformedStage

/-- The loop of `extract_dict_stages` over the top-level keys ending in
`_stage` (recipe.py:355-359): the stage body gets its `group` from the
key with the suffix stripped; subscript-assigning a non-dict value raises
`TypeError`. -/
def suffixStagesLoop : List (String × Val) → Except PyErr (List Val × List String)
  | [] => .ok ([], [])
  | (k, v) :: rest =>
    if sEndsWith k "_stage" then
      match v with
      | .vDict body =>
        match suffixStagesLoop rest with
        | .ok (ss, ks) =>
          .ok (Val.vDict (aInsert body "group" (Val.vStr (sDropRight k 6))) :: ss, k :: ks)
        | .error e => .error e
      | _ => .error .typeErr
    else suffixStagesLoop rest

/-- The `stages`-key block of `Recipe.extract_dict_stages`
(recipe.py:344-353): a truthy `stages` value must be a dict (else
`AssertionError`, the spec's `MalformedStageError`); its entries are
collected as stages tagged with their keys, and the key is consumed.  A
falsy `stages` value is skipped and not consumed. -/
def stagesKeyStep (values : List (String × Val)) :
    Except PyErr (List Val × List String) :=
  match aGet? values "stages" with
  | some sv =>
    if truthy sv then
      match sv with
      | .vDict entries =>
        match stagesEntriesLoop entries with
        | .ok ss => .ok (ss, ["stages"])
        | .error e => .error e
      | _ => .error .malformedStage
    else .ok ([], [])
  | none => .ok ([], [])

/-- The default stage built from pre-extracted modifier dicts:
`{"modifiers": modifiers, "group": "default"}`. -/
def defaultStageVal (modifiers : List Val) : Val :=
  Val.vDict [("modifiers", Val.vList modifiers), ("group", Val.vStr "default")]

/-- Embedding of `Recipe.extract_dict_stages` (recipe.py:284-364).
Returns the extracted stage dicts together with the mapping after the
consumed keys were deleted (the Python function mutates `values`). -/
def extract_dict_stages (values : List (String × Val)) :
    Except PyErr (List Val × List (String × Val)) :=
  match extract_dict_modifiers values with
  | .error e => .error e
  | .ok (default_modifiers, values) =>
    match stagesKeyStep values with
    | .error e => .error e
    | .ok (stages₁, rk₁) =>
      match suffixStagesLoop values with
      | .error e => .error e
      | .ok (stages₂, rk₂) =>
        .ok ((if default_modifiers.isEmpty then []
              else [defaultStageVal default_modifiers]) ++ stages₁ ++ stages₂,
             (rk₁ ++ rk₂).foldl aErase values)

/-- The output shape of the `remap_stages` pre-validation hook: exactly a
`stages` list and an `args` mapping. -/
structure FormattedValues where
  stages : List Val
  args : List (String × Val)

/-- Embedding of `Recipe.remap_stages` (recipe.py:259-282), the
`model_validator(mode="before")` hook run on every parsed mapping. -/
def remap_stages (values : List (String × Val)) : Except PyErr FormattedValues :=
  match extract_dict_modifiers values with
  | .error e => .error e
  | .ok (modifiers, values) =>
    match extract_dict_stages values with
    | .error e => .error e
    | .ok (extracted, values) =>
      .ok ⟨(if modifiers.isEmpty then [] else [defaultStageVal modifiers]) ++ extracted,
           values⟩

/-- Modelled from the spec: validation of one raw extracted modifier dict
into a `RecipeModifier` (`llmcompressor/recipe/modifier.py` is not among
the provided source files).  A raw modifier dict is
`{type_name: args_mapping, "group": group_name}` (§3 and §6 of the spec);
the argument value must itself be a mapping. -/
def validateModifier (v : Val) : Except PyErr RecipeModifier :=
  match v with
  | .vDict [(t, .vDict a), ("group", .vStr g)] => .ok ⟨t, g, a⟩
  | _ => .error .validation

/-- Validation of a list of raw modifier dicts, first failure wins. -/
def validateModifiers : List Val → Except PyErr (List RecipeModifier)
  | [] => .ok []
  | v :: rest =>
    match validateModifier v with
    | .error e => .error e
    | .ok m =>
      match validateModifiers rest with
      | .error e => .error e
      | .ok ms => .ok (m :: ms)

/-- Modelled from the spec: `RecipeStage` validation
(`llmcompressor/recipe/stage.py`, not among the provided source files).
A stage dict produced by `remap_stages` carries its `group`; its
modifiers are either the already-extracted list stored under `modifiers`
(the default stage built by `remap_stages`) or are extracted from the
stage body by `extract_dict_modifiers` (§4.2 shape 4 plus the unqualified
`modifiers` key, which implies group `"default"`, §8).  `run_type` is
taken from the body when present, else inferred from the group name when
that is exactly `"oneshot"` or `"train"`, else left unset (§3).
This definition is the modifier-source step; `validateStage` below
assembles the stage. -/
def stageModsSource (body : List (String × Val)) :
    Except PyErr (List Val × List (String × Val)) :=
  match aGet? body "modifiers" with
  | some (.vList pre) => .ok (pre, aErase body "modifiers")
  | _ => extract_dict_modifiers body

/-- The stage's run type: taken from the body when present, else inferred
from the group name (`"oneshot"`/`"train"`), else unset. -/
def stageRunType (rest : List (String × Val)) (group : String) : Option String :=
  match aGet? rest "run_type" with
  | some (.vStr s) => some s
  | _ => if group = "oneshot" ∨ group = "train" then some group else none

def validateStage (v : Val) : Except PyErr RecipeStage :=
  match v with
  | .vDict body =>
    match aGet? body "group" with
    | some (.vStr group) =>
      match stageModsSource body with
      | .error e => .error e
      | .ok (rawMods, rest) =>
        match validateModifiers rawMods with
        | .error e => .error e
        | .ok mods => .ok ⟨group, stageRunType rest group, mods⟩
    | _ => .error .validation
  | _ => .error .validation

/-- Validation of the stage-dict list, first failure wins. -/
def validateStages : List Val → Except PyErr (List RecipeStage)
  | [] => .ok []
  | v :: rest =>
    match validateStage v with
    | .error e => .error e
    | .ok s =>
      match validateStages rest with
      | .error e => .error e
      | .ok ss => .ok (s :: ss)

/-- Embedding of `Recipe.model_validate` on an already-parsed mapping:
run the `remap_stages` pre-validation hook, then populate the typed
fields.  The formatted values carry only the keys `stages` and `args`, so
the `version` field always takes its declared default `None`
(recipe.py:224, 271-282). -/
def recipeValidate (values : List (String × Val)) : Except PyErr Recipe :=
  match remap_stages values with
  | .error e => .error e
  | .ok fv =>
    match validateStages fv.stages with
    | .error e => .error e
    | .ok stages => .ok ⟨none, fv.args, stages⟩

/-! Serialization (recipe.py:366-449 and 505-532). -/

/-- Generic accumulating loop shared by the serializer's two group-by
for-loops: each element is keyed by `key`; a new key appends
`(key x, init x)` at the end of the dict, an existing key has its value
updated in place. -/
def groupFold {α β : Type} (key : α → String) (init : α → β) (upd : β → α → β)
    (xs : List α) : List (String × β) :=
  xs.foldl (fun acc x =>
    if aContains acc (key x) then aModify acc (key x) (fun b => upd b x)
    else acc ++ [(key x, init x)]) []

/-- Embedding of the stage-grouping loop of `Recipe.dict`
(recipe.py:366-384): stages are collected under `"<group>_stage"` keys in
first-seen order, each key holding the list of its stages in stage-list
order.  (The Python loop deletes `group` from each dumped stage; the
records kept here still carry it, but the serializer below reads only
`run_type` and `modifiers` from them, as the source does.) -/
def dictStages (stages : List RecipeStage) : List (String × List RecipeStage) :=
  groupFold (fun s => s.group ++ "_stage") (fun s => [s]) (fun l s => l ++ [s]) stages

/-- Embedding of `get_yaml_serializable_stage_dict` (recipe.py:505-532):
regroup a stage's modifiers under `"<group>_modifiers"` keys in
first-seen order, indexed inside by modifier type (duplicate
`(group, type)` pairs silently overwrite). -/
def get_yaml_serializable_stage_dict (modifiers : List RecipeModifier) :
    List (String × List (String × Val)) :=
  groupFold (fun m => m.group ++ "_modifiers")
    (fun m => aInsert [] m.type (Val.vDict m.args))
    (fun inner m => aInsert inner m.type (Val.vDict m.args)) modifiers

/-- The body emitted for one dumped stage by `_get_yaml_dict`
(recipe.py:439-445): the regrouped modifiers, then `run_type` when the
dumped stage has a truthy one. -/
def stageBody (s : RecipeStage) : List (String × Val) :=
  let sd := (get_yaml_serializable_stage_dict s.modifiers).map
    (fun gi => (gi.1, Val.vDict gi.2))
  match s.run_type with
  | some rt => if rt = "" then sd else aInsert sd "run_type" (Val.vStr rt)
  | none => sd

/-- The stage-key/stage-body emission sequence of `_get_yaml_dict`
(recipe.py:430-447), flattened in iteration order: for each grouped name
in first-seen order, each stage of that group in order; the key is the
name alone when the group holds one stage and `"<name>_<idx>"` (0-based
index within that group) when it holds several. -/
def emitStages (grouped : List (String × List RecipeStage)) : List (String × Val) :=
  (grouped.map (fun nsl =>
    ((List.range nsl.2.length).zip nsl.2).map (fun is =>
      (if nsl.2.length > 1 then nsl.1 ++ "_" ++ toString is.1 else nsl.1,
       Val.vDict (stageBody is.2))))).flatten

/-- Embedding of `Recipe._get_yaml_dict` (recipe.py:410-449): recipe-level
`version` and `args` when truthy, then the stage entries assigned into the
YAML dict in emission order. -/
def Recipe.getYamlDict (r : Recipe) : List (String × Val) :=
  let top₀ : List (String × Val) :=
    match r.version with
    | some v => if v = "" then [] else [("version", Val.vStr v)]
    | none => []
  let top₁ := top₀ ++ (if r.args.isEmpty then [] else [("args", Val.vDict r.args)])
  (emitStages (dictStages r.stages)).foldl (fun t kv => aInsert t kv.1 kv.2) top₁

/-! Ingestion of in-memory inputs, combination and simplification
(recipe.py:34-222, 452-454, 457-473). -/

/-- Abstract live `Modifier` object (the `llmcompressor.modifiers`
collaborator): the recipe code reads only its class name and its
non-default constructor arguments (`model_dump(exclude_unset=True)`). -/
structure Modifier where
  className : String
  dumpedArgs : List (String × Val)

/-- One element of a list-shaped `RecipeInput`
(recipe.py:452: lists of strings, of Recipes, or of Modifiers are all
admitted by the declared type). -/
inductive RecipeInputElem where
  | str : String → RecipeInputElem
  | rcp : Recipe → RecipeInputElem
  | mod : Modifier → RecipeInputElem

/-- The `RecipeInput` union (recipe.py:452). -/
inductive RecipeInputV where
  | str : String → RecipeInputV
  | rcp : Recipe → RecipeInputV
  | mod : Modifier → RecipeInputV
  | list : List RecipeInputElem → RecipeInputV

/-- Python `isinstance(x, Modifier)` on a list element. -/
def RecipeInputElem.isMod : RecipeInputElem → Bool
  | .mod _ => true
  | _ => false

/-- Run-type inference for a directly constructed stage.  Modelled from
the spec (§3): `run_type` is inferred from the group name when it is
exactly `"oneshot"` or `"train"`, else left unset
(`llmcompressor/recipe/stage.py` is not among the provided sources). -/
def inferRunType (group : String) : Option String :=
  if group = "oneshot" ∨ group = "train" then some group else none

/-- Embedding of `Recipe.from_modifiers` (recipe.py:34-83): reject any
non-`Modifier` element, then wrap the modifiers into `RecipeModifier`s
carrying the group name (`modifier_group_name or "default"`) inside one
synthetic stage. -/
def from_modifiers (modifiers : List RecipeInputElem)
    (modifier_group_name : Option String) : Except PyErr Recipe :=
  if modifiers.any (fun m => !m.isMod) then .error .invalidModifier
  else
    let group_name :=
      match modifier_group_name with
      | some g => if g = "" then "default" else g
      | none => "default"
    let recipe_modifiers : List RecipeModifier :=
      modifiers.filterMap (fun m =>
        match m with
        | .mod m => some ⟨m.className, group_name, m.dumpedArgs⟩
        | _ => none)
    .ok ⟨none, [], [⟨group_name, inferRunType group_name, recipe_modifiers⟩]⟩

/-- Embedding of `_load_json_or_yaml_string` (recipe.py:457-473),
abstracted over the external `json.loads` and `yaml.safe_load` parsers
(`none` embeds the caught `JSONDecodeError`/`YAMLError`): try JSON first,
fall back to YAML, and require the successfully parsed value to be a
dict. -/
def load_json_or_yaml_string (jsonLoads yamlSafeLoad : String → Option Val)
    (content : String) : Except PyErr Val :=
  let ret? : Option Val :=
    match jsonLoads content with
    | some ret => some ret
    | none => yamlSafeLoad content
  match ret? with
  | none => .error .parseErr
  | some ret => if isDict ret then .ok ret else .error .parseErr

/-- Embedding of the non-file string branch of `Recipe.create_instance`
(recipe.py:129-138): the input string is not an existing file path (the
file system is an external collaborator and is not modelled), so the
string itself is parsed and the result validated.  The last branch is
unreachable: `load_json_or_yaml_string` only succeeds on dicts. -/
def create_instance_str (jsonLoads yamlSafeLoad : String → Option Val)
    (s : String) : Except PyErr Recipe :=
  match load_json_or_yaml_string jsonLoads yamlSafeLoad s with
  | .error e => .error e
  | .ok (.vDict d) => recipeValidate d
  | .ok _ => .error .parseErr

/-- Embedding of `Recipe.create_instance` (recipe.py:85-160) on in-memory
inputs: an existing `Recipe` is returned as is; a `Modifier` or a list
input goes through `from_modifiers`; a string input that is not an
existing file path is parsed from the string itself. -/
def create_instance (jsonLoads yamlSafeLoad : String → Option Val)
    (input : RecipeInputV) (modifier_group_name : Option String) :
    Except PyErr Recipe :=
  match input with
  | .rcp r => .ok r
  | .mod m => from_modifiers [.mod m] modifier_group_name
  | .list l => from_modifiers l modifier_group_name
  | .str s => create_instance_str jsonLoads yamlSafeLoad s

/-- Embedding of `Recipe.simplify_recipe` (recipe.py:162-198).  The Python
function is annotated to return a `Recipe` but returns its argument
unchanged when no branch converts it, so the result is again a
`RecipeInput` value; accessing `.stages`/`.args` on a non-`Recipe` result
raises (`typeErr`). -/
def simplify_recipe (jsonLoads yamlSafeLoad : String → Option Val)
    (recipe : Option RecipeInputV) (target_stage : Option (List String))
    (override_args : Option (List (String × Val))) : Except PyErr RecipeInputV :=
  match recipe with
  | none => .ok (.rcp ⟨none, [], []⟩)
  | some (.list []) => .ok (.rcp ⟨none, [], []⟩)
  | some inp =>
    let prepE : Except PyErr RecipeInputV :=
      match inp with
      | .mod m =>
        match create_instance jsonLoads yamlSafeLoad (.mod m) none with
        | .ok r => .ok (.rcp r)
        | .error e => .error e
      | .str s =>
        match create_instance jsonLoads yamlSafeLoad (.str s) none with
        | .ok r => .ok (.rcp r)
        | .error e => .error e
      | .list l =>
        if l.all (fun m => m.isMod) then
          match create_instance jsonLoads yamlSafeLoad (.list l) none with
          | .ok r => .ok (.rcp r)
          | .error e => .error e
        else .ok inp
      | .rcp r => .ok (.rcp r)
    match prepE with
    | .error e => .error e
    | .ok prep =>
      let filteredE : Except PyErr RecipeInputV :=
        match target_stage with
        | some ts =>
          if ts.isEmpty then .ok prep
          else
            match prep with
            | .rcp r =>
              .ok (.rcp ⟨r.version, r.args,
                         r.stages.filter (fun s => ts.contains s.group)⟩)
            | _ => .error .typeErr
        | none => .ok prep
      match filteredE with
      | .error e => .error e
      | .ok filtered =>
        match override_args with
        | some ov =>
          if ov.isEmpty then .ok filtered
          else
            match filtered with
            | .rcp r => .ok (.rcp ⟨r.version, dictUpdate r.args ov, r.stages⟩)
            | _ => .error .typeErr
        | none => .ok filtered

/-- Embedding of `Recipe.simplify_combine_recipes` (recipe.py:200-222) on
already-built `Recipe` inputs: each input is passed through
`simplify_recipe`, then version is overwritten, stages extended and args
updated.  For a `Recipe` input `simplify_recipe` never fails and returns
it unchanged, so the fallback branch is unreachable. -/
def simplify_combine_recipes (jsonLoads yamlSafeLoad : String → Option Val)
    (recipes : List Recipe) : Recipe :=
  recipes.foldl (fun combined r =>
    match simplify_recipe jsonLoads yamlSafeLoad (some (.rcp r)) none none with
    | .ok (.rcp simplified) =>
      ⟨simplified.version, dictUpdate combined.args simplified.args,
       combined.stages ++ simplified.stages⟩
    | _ => combined) ⟨none, [], []⟩

/-! Front-matter extraction (recipe.py:476-502): the regex
`^\s*(?:---|\+\+\+)(.*?)(?:---|\+\+\+)` with `re.S | re.M`, applied by
`re.search`. -/

/-- Python `\s` on the ASCII whitespace characters. -/
def isPyWs (c : Char) : Bool :=
  c == ' ' || c == '\t' || c == '\n' || c == '\r' || c == '\x0b' || c == '\x0c'

/-- Match of the delimiter alternative `(?:---|\+\+\+)` at the head of the
character list, returning the remainder. -/
def matchDelim : List Char → Option (List Char)
  | '-' :: '-' :: '-' :: rest => some rest
  | '+' :: '+' :: '+' :: rest => some rest
  | _ => none

/-- The lazy group `(.*?)` followed by the closing delimiter (under
`re.S` the dot also matches newlines): the shortest prefix of the list
whose remainder starts with a delimiter. -/
def lazyUpToDelim (l : List Char) : Option (List Char) :=
  match matchDelim l with
  | some _ => some []
  | none =>
    match l with
    | [] => none
    | c :: cs => (lazyUpToDelim cs).map (fun g => c :: g)

/-- One attempt of the whole pattern at a position where `^` matches.
The greedy `\s*` cannot backtrack usefully because the delimiter
characters `-` and `+` are not whitespace, so it always consumes exactly
the maximal whitespace run. -/
def matchPatternHere (l : List Char) : Option (List Char) :=
  match matchDelim (l.dropWhile isPyWs) with
  | some rest => lazyUpToDelim rest
  | none => none

/-- Leftmost `re.search`: with `re.M`, `^` matches at the start of the
string and right after every newline, and the first matching position
wins. -/
def searchPattern : List Char → Bool → Option (List Char)
  | l, atLineStart =>
    match (if atLineStart then matchPatternHere l else none) with
    | some g => some g
    | none =>
      match l with
      | [] => none
      | c :: cs => searchPattern cs (c == '\n')

/-- Embedding of `_parse_recipe_from_md` (recipe.py:476-502): return the
first front-matter group or raise. -/
def parse_recipe_from_md (yaml_str : String) : Except PyErr String :=
  match searchPattern yaml_str.data true with
  | some g => .ok ⟨g⟩
  | none => .error .frontMatter

/-! Further dict lemmas. -/

theorem aGet?_aErase {α : Type} (d : List (String × α)) (k k' : String) :
    aGet? (aErase d k) k' = if k = k' then none else aGet? d k' := by
  induction d with
  | nil => simp [aErase, aGet?]
  | cons kv rest ih =>
    obtain ⟨k₀, v₀⟩ := kv
    by_cases h : k₀ = k
    · subst h
      by_cases h' : k₀ = k'
      · subst h'
        simpa [aErase, aGet?, List.filter_cons] using ih
      · simp only [aErase, List.filter_cons] at ih ⊢
        simpa [aGet?, h'] using ih
    · by_cases h' : k₀ = k'
      · subst h'
        have hne : ¬ k = k₀ := fun hc => h hc.symm
        simp [aErase, List.filter_cons, h, aGet?, hne]
      · simp only [aErase, List.filter_cons] at ih ⊢
        simp [aGet?, h, h', ih, bne]

theorem aGet?_foldl_aErase {α : Type} (ks : List String) (d : List (String × α))
    (k' : String) (h : k' ∉ ks) :
    aGet? (ks.foldl aErase d) k' = aGet? d k' := by
  induction ks generalizing d with
  | nil => rfl
  | cons k rest ih =>
    have hk : k ≠ k' := fun hc => h (hc ▸ List.mem_cons_self k rest)
    have hrest : k' ∉ rest := fun hc => h (List.mem_cons_of_mem _ hc)
    simp only [List.foldl_cons]
    rw [ih _ hrest, aGet?_aErase, if_neg hk]

theorem aGet?_eq_none_of_not_mem {α : Type} (d : List (String × α)) (k : String)
    (h : k ∉ d.map Prod.fst) : aGet? d k = none := by
  induction d with
  | nil => rfl
  | cons kv rest ih =>
    obtain ⟨k₀, v₀⟩ := kv
    simp only [List.map_cons, List.mem_cons] at h
    push_neg at h
    have hne : k₀ ≠ k := fun hc => h.1 hc.symm
    simp [aGet?, hne, ih h.2]

/-- Lookup with fallback: the first result wins when present. -/
def lookupOr {α : Type} (o fallback : Option α) : Option α :=
  match o with
  | some v => some v
  | none => fallback

theorem aGet?_dictUpdate {α : Type} (d₁ d₂ : List (String × α)) (k : String)
    (hnd : (d₂.map Prod.fst).Nodup) :
    aGet? (dictUpdate d₁ d₂) k = lookupOr (aGet? d₂ k) (aGet? d₁ k) := by
  induction d₂ generalizing d₁ with
  | nil => rfl
  | cons kv rest ih =>
    obtain ⟨k₀, v₀⟩ := kv
    simp only [List.map_cons, List.nodup_cons] at hnd
    have hstep : dictUpdate d₁ ((k₀, v₀) :: rest) = dictUpdate (aInsert d₁ k₀ v₀) rest := rfl
    rw [hstep, ih _ hnd.2]
    by_cases h : k₀ = k
    · subst h
      have : aGet? rest k₀ = none := aGet?_eq_none_of_not_mem rest k₀ hnd.1
      simp [aGet?, this, aGet?_aInsert, lookupOr]
    · simp [aGet?, h, aGet?_aInsert, lookupOr]

/-! ### Claim C7: front-matter extraction -/

/-- C7 counterexample: on the claim's markdown string, front-matter
extraction does not return `"a: 1\n"`: the extracted group starts with
the newline that follows the opening delimiter line. -/
theorem c7_counterexample :
    parse_recipe_from_md "---\na: 1\n---\n# notes" ≠ Except.ok "a: 1\n" := by
  have h : parse_recipe_from_md "---\na: 1\n---\n# notes" = Except.ok "\na: 1\n" := rfl
  rw [h]
  intro hc
  have : ("\na: 1\n" : String) = "a: 1\n" := by injection hc
  exact absurd this (by decide)

/-- C7 (amended): front-matter extraction on the markdown string
`"---\na: 1\n---\n# notes"` returns exactly `"\na: 1\n"` — the delimited
block only, including the newline right after the opening delimiter, the
notes discarded — and on a markdown input containing no delimited block it
fails with `FrontMatterNotFoundError`. -/
theorem c7_front_matter :
    parse_recipe_from_md "---\na: 1\n---\n# notes" = Except.ok "\na: 1\n" ∧
    parse_recipe_from_md "# notes\nno delimiters here" = Except.error PyErr.frontMatter :=
  ⟨rfl, rfl⟩

/-! ### Claim C10: list inputs that are not all modifiers pass through
`simplify_recipe` unconverted -/

/-- C10: a non-empty list input whose elements are not all `Modifier`
instances is not converted to a `Recipe`; with no target stages and no
override args, `simplify_recipe` returns the input list itself. -/
theorem c10_list_passthrough (jp yp : String → Option Val)
    (l : List RecipeInputElem) (hne : l ≠ [])
    (hnm : ¬ l.all (fun m => m.isMod) = true) :
    simplify_recipe jp yp (some (.list l)) none none = .ok (.list l) := by
  cases l with
  | nil => exact absurd rfl hne
  | cons x xs =>
    have hall : (x :: xs).all (fun m => m.isMod) = false := Bool.eq_false_iff.mpr hnm
    simp [simplify_recipe, hall]

/-- C10 witness: a concrete list of two strings flows through unchanged. -/
theorem c10_witness :
    simplify_recipe (fun _ => none) (fun _ => none)
      (some (.list [.str "a", .str "b"])) none none =
      .ok (.list [.str "a", .str "b"]) :=
  c10_list_passthrough (fun _ => none) (fun _ => none) _
    (List.cons_ne_nil _ _) (by decide)

/-! ### Claim C2: `simplify_combine_recipes` -/

/-- For an already-built `Recipe` input with no targets and no overrides,
`simplify_recipe` is the identity (recipe.py:177-198: no branch applies). -/
theorem simplify_recipe_on_recipe (jp yp : String → Option Val) (r : Recipe) :
    simplify_recipe jp yp (some (.rcp r)) none none = .ok (.rcp r) := rfl

/-- Characterization of the combination fold for an arbitrary initial
accumulator. -/
theorem combine_foldl (jp yp : String → Option Val) (recipes : List Recipe)
    (init : Recipe) :
    recipes.foldl (fun combined r =>
      match simplify_recipe jp yp (some (.rcp r)) none none with
      | .ok (.rcp simplified) =>
        (⟨simplified.version, dictUpdate combined.args simplified.args,
          combined.stages ++ simplified.stages⟩ : Recipe)
      | _ => combined) init =
    ⟨(match recipes.getLast? with
      | some r => r.version
      | none => init.version),
     recipes.foldl (fun a r => dictUpdate a r.args) init.args,
     init.stages ++ (recipes.map Recipe.stages).flatten⟩ := by
  induction recipes generalizing init with
  | nil =>
    cases init
    simp
  | cons r rest ih =>
    simp only [List.foldl_cons, simplify_recipe_on_recipe] at ih ⊢
    rw [ih]
    cases rest with
    | nil => simp
    | cons y ys =>
      simp only [List.getLast?_cons_cons, List.map_cons, List.flatten_cons]
      cases h : (y :: ys).getLast? with
      | some r' => simp [h]
      | none => simp at h

/-- Lookup in the left fold of args updates: the latest recipe providing
the key wins; each args dict is assumed key-unique, as Python dicts are. -/
theorem aGet?_foldl_dictUpdate (recipes : List Recipe)
    (a₀ : List (String × Val))
    (hnd : ∀ r ∈ recipes, (r.args.map Prod.fst).Nodup) (k : String) :
    aGet? (recipes.foldl (fun a r => dictUpdate a r.args) a₀) k =
      match recipes.reverse.findSome? (fun r => aGet? r.args k) with
      | some v => some v
      | none => aGet? a₀ k := by
  induction recipes generalizing a₀ with
  | nil => rfl
  | cons r rest ih =>
    have hr : (r.args.map Prod.fst).Nodup := hnd r (List.mem_cons_self r rest)
    have hrest : ∀ r' ∈ rest, (r'.args.map Prod.fst).Nodup :=
      fun r' h => hnd r' (List.mem_cons_of_mem _ h)
    simp only [List.foldl_cons, List.reverse_cons, List.findSome?_append]
    rw [ih _ hrest]
    cases hfs : rest.reverse.findSome? (fun r' => aGet? r'.args k) with
    | some v => simp [Option.or]
    | none =>
      rw [aGet?_dictUpdate _ _ _ hr]
      cases hk : aGet? r.args k with
      | some v => simp [Option.or, List.findSome?, hk, lookupOr]
      | none => simp [Option.or, List.findSome?, hk, lookupOr]

/-- C2: for every list of `Recipe` inputs (their args key-unique, as
Python dicts are), `simplify_combine_recipes` returns one Recipe whose
stages are the concatenation of the inputs' stages in order, whose args
lookup yields the value of the last input providing the key, and whose
version is the last input's version; on the empty list it returns the
empty Recipe `⟨None, {}, []⟩`. -/
theorem c2_simplify_combine_recipes (jp yp : String → Option Val)
    (recipes : List Recipe)
    (hnd : ∀ r ∈ recipes, (r.args.map Prod.fst).Nodup) :
    (simplify_combine_recipes jp yp recipes).stages =
      (recipes.map Recipe.stages).flatten ∧
    (∀ k, aGet? (simplify_combine_recipes jp yp recipes).args k =
      recipes.reverse.findSome? (fun r => aGet? r.args k)) ∧
    (simplify_combine_recipes jp yp recipes).version =
      (match recipes.getLast? with
       | some r => r.version
       | none => none) ∧
    simplify_combine_recipes jp yp [] = ⟨none, [], []⟩ := by
  have hfold : simplify_combine_recipes jp yp recipes =
      ⟨(match recipes.getLast? with
        | some r => r.version
        | none => none),
       recipes.foldl (fun a r => dictUpdate a r.args) [],
       (recipes.map Recipe.stages).flatten⟩ := by
    have h := combine_foldl jp yp recipes ⟨none, [], []⟩
    simpa [simplify_combine_recipes] using h
  refine ⟨by rw [hfold], fun k => ?_, by rw [hfold], rfl⟩
  rw [hfold]
  show aGet? (recipes.foldl (fun a r => dictUpdate a r.args) []) k = _
  rw [aGet?_foldl_dictUpdate recipes [] hnd k]
  cases recipes.reverse.findSome? (fun r => aGet? r.args k) <;> rfl

/-- C2 witness: combining two concrete recipes with a colliding args key. -/
theorem c2_witness :
    aGet? (simplify_combine_recipes (fun _ => none) (fun _ => none)
      [⟨some "1", [("k", Val.vInt 1)], [⟨"a", none, []⟩]⟩,
       ⟨none, [("k", Val.vInt 9)], [⟨"b", none, []⟩]⟩]).args "k" =
    ([⟨some "1", [("k", Val.vInt 1)], [⟨"a", none, []⟩]⟩,
      (⟨none, [("k", Val.vInt 9)], [⟨"b", none, []⟩]⟩ : Recipe)].reverse.findSome?
        (fun r => aGet? r.args "k")) :=
  (c2_simplify_combine_recipes (fun _ => none) (fun _ => none) _
    (by decide)).2.1 "k"

/-! ### Claim C9: a top-level `version` key lands in args, never in the
`version` field -/

/-- Every key consumed by the bare-`modifiers` step is `"modifiers"`. -/
theorem bare_step_keys (values : List (String × Val)) (ms₀ : List Val)
    (rk₀ : List String) (h : bareModifiersStep values = .ok (ms₀, rk₀)) :
    ∀ x ∈ rk₀, x = "modifiers" := by
  unfold bareModifiersStep at h
  split at h
  · split at h
    · split at h
      · simp only [Except.ok.injEq, Prod.mk.injEq] at h
        rw [← h.2]
        simp
      · simp at h
    · simp only [Except.ok.injEq, Prod.mk.injEq] at h
      rw [← h.2]
      simp
  · simp only [Except.ok.injEq, Prod.mk.injEq] at h
    rw [← h.2]
    simp

/-- Every key consumed by the `_modifiers`-suffix loop ends in
`_modifiers`. -/
theorem edm_loop_keys (vs : List (String × Val)) (ms : List Val) (ks : List String)
    (h : extract_dict_modifiers_loop vs = .ok (ms, ks)) :
    ∀ k ∈ ks, sEndsWith k "_modifiers" = true := by
  induction vs generalizing ms ks with
  | nil =>
    intro k hk
    simp only [extract_dict_modifiers_loop, Except.ok.injEq, Prod.mk.injEq] at h
    rw [← h.2] at hk
    cases hk
  | cons kv rest ih =>
    intro k hk
    obtain ⟨k₀, v₀⟩ := kv
    simp only [extract_dict_modifiers_loop] at h
    split at h
    next hE =>
      split at h
      next entries =>
        cases hrest : extract_dict_modifiers_loop rest with
        | ok p =>
          obtain ⟨ms', ks'⟩ := p
          rw [hrest] at h
          simp only [Except.ok.injEq, Prod.mk.injEq] at h
          rw [← h.2] at hk
          rcases List.mem_cons.mp hk with h1 | h1
          · rw [h1]; exact hE
          · exact ih ms' ks' hrest k h1
        | error e => rw [hrest] at h; simp at h
      next hnd => simp at h
    next hE => exact ih ms ks h k hk

/-- Every key consumed by the `_stage`-suffix loop ends in `_stage`. -/
theorem suffix_loop_keys (vs : List (String × Val)) (ss : List Val) (ks : List String)
    (h : suffixStagesLoop vs = .ok (ss, ks)) :
    ∀ k ∈ ks, sEndsWith k "_stage" = true := by
  induction vs generalizing ss ks with
  | nil =>
    intro k hk
    simp only [suffixStagesLoop, Except.ok.injEq, Prod.mk.injEq] at h
    rw [← h.2] at hk
    cases hk
  | cons kv rest ih =>
    intro k hk
    obtain ⟨k₀, v₀⟩ := kv
    simp only [suffixStagesLoop] at h
    split at h
    next hE =>
      split at h
      next body =>
        cases hrest : suffixStagesLoop rest with
        | ok p =>
          obtain ⟨ss', ks'⟩ := p
          rw [hrest] at h
          simp only [Except.ok.injEq, Prod.mk.injEq] at h
          rw [← h.2] at hk
          rcases List.mem_cons.mp hk with h1 | h1
          · rw [h1]; exact hE
          · exact ih ss' ks' hrest k h1
        | error e => rw [hrest] at h; simp at h
      next hnd => simp at h
    next hE => exact ih ss ks h k hk

/-- `extract_dict_modifiers` only deletes the bare `modifiers` key and
keys ending in `_modifiers`; every other key keeps its binding. -/
theorem edm_preserves (values : List (String × Val)) (ms : List Val)
    (v' : List (String × Val)) (h : extract_dict_modifiers values = .ok (ms, v'))
    (k : String) (hk1 : k ≠ "modifiers") (hk2 : sEndsWith k "_modifiers" = false) :
    aGet? v' k = aGet? values k := by
  unfold extract_dict_modifiers at h
  cases hb : bareModifiersStep values with
  | error e => rw [hb] at h; simp at h
  | ok p₀ =>
    obtain ⟨ms₀, rk₀⟩ := p₀
    rw [hb] at h
    cases hloop : extract_dict_modifiers_loop values with
    | error e => rw [hloop] at h; simp at h
    | ok p₁ =>
      obtain ⟨ms₁, rk₁⟩ := p₁
      rw [hloop] at h
      simp only [Except.ok.injEq, Prod.mk.injEq] at h
      rw [← h.2]
      apply aGet?_foldl_aErase
      intro hmem
      rcases List.mem_append.mp hmem with h1 | h1
      · exact hk1 (bare_step_keys values ms₀ rk₀ hb k h1)
      · rw [edm_loop_keys values ms₁ rk₁ hloop k h1] at hk2; cases hk2

/-- Every key consumed by the `stages`-key step is `"stages"`. -/
theorem stages_step_keys (values : List (String × Val)) (ss : List Val)
    (rk : List String) (h : stagesKeyStep values = .ok (ss, rk)) :
    ∀ x ∈ rk, x = "stages" := by
  unfold stagesKeyStep at h
  split at h
  · split at h
    · split at h
      · split at h
        · simp only [Except.ok.injEq, Prod.mk.injEq] at h
          rw [← h.2]
          simp
        · simp at h
      · simp at h
    · simp only [Except.ok.injEq, Prod.mk.injEq] at h
      rw [← h.2]
      simp
  · simp only [Except.ok.injEq, Prod.mk.injEq] at h
    rw [← h.2]
    simp

/-- `extract_dict_stages` only deletes modifier-shape keys, the `stages`
key and keys ending in `_stage`; every other key keeps its binding. -/
theorem eds_preserves (values : List (String × Val)) (out : List Val)
    (v' : List (String × Val)) (h : extract_dict_stages values = .ok (out, v'))
    (k : String) (hk1 : k ≠ "modifiers") (hk2 : sEndsWith k "_modifiers" = false)
    (hk3 : k ≠ "stages") (hk4 : sEndsWith k "_stage" = false) :
    aGet? v' k = aGet? values k := by
  unfold extract_dict_stages at h
  split at h
  · simp at h
  next dm v₁ hedm =>
    split at h
    · simp at h
    next stages₁ rk₁ hsks =>
      split at h
      · simp at h
      next stages₂ rk₂ hsl =>
        simp only [Except.ok.injEq, Prod.mk.injEq] at h
        rw [← h.2, ← edm_preserves values dm v₁ hedm k hk1 hk2]
        apply aGet?_foldl_aErase
        intro hmem
        rcases List.mem_append.mp hmem with h1 | h1
        · exact hk3 (stages_step_keys v₁ stages₁ rk₁ hsks k h1)
        · rw [suffix_loop_keys v₁ stages₂ rk₂ hsl k h1] at hk4; cases hk4

/-- `remap_stages` puts into `args` exactly the unconsumed bindings; any
key that is not one of the consumed shapes keeps its binding. -/
theorem remap_preserves (values : List (String × Val)) (fv : FormattedValues)
    (h : remap_stages values = .ok fv)
    (k : String) (hk1 : k ≠ "modifiers") (hk2 : sEndsWith k "_modifiers" = false)
    (hk3 : k ≠ "stages") (hk4 : sEndsWith k "_stage" = false) :
    aGet? fv.args k = aGet? values k := by
  unfold remap_stages at h
  split at h
  · simp at h
  next dm v₁ hedm =>
    split at h
    · simp at h
    next ex v₂ heds =>
      simp only [Except.ok.injEq] at h
      have hargs : fv.args = v₂ := by rw [← h]
      rw [hargs, eds_preserves v₁ ex v₂ heds k hk1 hk2 hk3 hk4,
        edm_preserves values dm v₁ hedm k hk1 hk2]

/-- C9: parsing a mapping never populates the `version` field — the
pre-validation hook keeps only `stages` and `args`, so `version` takes
its field default `None`, and an input `version` binding survives
verbatim inside `args`. -/
theorem c9_version_lands_in_args (values : List (String × Val)) (r : Recipe)
    (h : recipeValidate values = .ok r) :
    r.version = none ∧ aGet? r.args "version" = aGet? values "version" := by
  unfold recipeValidate at h
  split at h
  · simp at h
  next fv hrm =>
    split at h
    · simp at h
    next stages hvs =>
      simp only [Except.ok.injEq] at h
      have hver : r.version = none := by rw [← h]
      have hargs : r.args = fv.args := by rw [← h]
      refine ⟨hver, ?_⟩
      rw [hargs]
      exact remap_preserves values fv hrm "version" (by decide) (by decide)
        (by decide) (by decide)

/-- C9 witness: a mapping with a `version` binding parses to a Recipe
with `version = None` and the binding kept inside `args`. -/
theorem c9_witness :
    (⟨none, [("version", Val.vStr "1.0")], []⟩ : Recipe).version = none ∧
    aGet? (⟨none, [("version", Val.vStr "1.0")], []⟩ : Recipe).args "version" =
      aGet? [("version", Val.vStr "1.0")] "version" :=
  c9_version_lands_in_args [("version", Val.vStr "1.0")] _ rfl

/-! ### Claim C5: parse failure of `create_instance` on non-file strings -/

/-- The loop over `_modifiers` keys only raises `typeErr`. -/
theorem edm_loop_not_parseErr (vs : List (String × Val)) (e : PyErr)
    (h : extract_dict_modifiers_loop vs = .error e) : e ≠ .parseErr := by
  induction vs generalizing e with
  | nil => simp [extract_dict_modifiers_loop] at h
  | cons kv rest ih =>
    obtain ⟨k₀, v₀⟩ := kv
    simp only [extract_dict_modifiers_loop] at h
    split at h
    · split at h
      · split at h
        · simp at h
        next e' heq =>
          simp only [Except.error.injEq] at h
          rw [← h]
          exact ih e' heq
      · simp only [Except.error.injEq] at h
        rw [← h]
        decide
    · exact ih e h

/-- The bare-`modifiers` step only raises `typeErr`. -/
theorem bare_step_not_parseErr (values : List (String × Val)) (e : PyErr)
    (h : bareModifiersStep values = .error e) : e ≠ .parseErr := by
  unfold bareModifiersStep at h
  split at h
  · split at h
    · split at h
      · simp at h
      · simp only [Except.error.injEq] at h
        rw [← h]
        decide
    · simp at h
  · simp at h

/-- `extract_dict_modifiers` never raises the parse error. -/
theorem edm_not_parseErr (values : List (String × Val)) (e : PyErr)
    (h : extract_dict_modifiers values = .error e) : e ≠ .parseErr := by
  unfold extract_dict_modifiers at h
  split at h
  next e' heq =>
    simp only [Except.error.injEq] at h
    rw [← h]
    exact bare_step_not_parseErr values e' heq
  next ms₀ rk₀ heq =>
    split at h
    next e' heq₂ =>
      simp only [Except.error.injEq] at h
      rw [← h]
      exact edm_loop_not_parseErr values e' heq₂
    next ms₁ rk₁ heq₂ => simp at h

/-- The `stages`-entries loop only raises `malformedStage`. -/
theorem sel_not_parseErr (entries : List (String × Val)) (e : PyErr)
    (h : stagesEntriesLoop entries = .error e) : e ≠ .parseErr := by
  induction entries generalizing e with
  | nil => simp [stagesEntriesLoop] at h
  | cons kv rest ih =>
    obtain ⟨k₀, v₀⟩ := kv
    simp only [stagesEntriesLoop] at h
    split at h
    · split at h
      · simp at h
      next e' heq =>
        simp only [Except.error.injEq] at h
        rw [← h]
        exact ih e' heq
    · simp only [Except.error.injEq] at h
      rw [← h]
      decide

/-- The `stages`-key step never raises the parse error. -/
theorem sks_not_parseErr (values : List (String × Val)) (e : PyErr)
    (h : stagesKeyStep values = .error e) : e ≠ .parseErr := by
  unfold stagesKeyStep at h
  split at h
  · split at h
    · split at h
      · split at h
        · simp at h
        next e' heq =>
          simp only [Except.error.injEq] at h
          rw [← h]
          exact sel_not_parseErr _ e' heq
      · simp only [Except.error.injEq] at h
        rw [← h]
        decide
    · simp at h
  · simp at h

/-- The loop over `_stage` keys only raises `typeErr`. -/
theorem ssl_not_parseErr (vs : List (String × Val)) (e : PyErr)
    (h : suffixStagesLoop vs = .error e) : e ≠ .parseErr := by
  induction vs generalizing e with
  | nil => simp [suffixStagesLoop] at h
  | cons kv rest ih =>
    obtain ⟨k₀, v₀⟩ := kv
    simp only [suffixStagesLoop] at h
    split at h
    · split at h
      · split at h
        · simp at h
        next e' heq =>
          simp only [Except.error.injEq] at h
          rw [← h]
          exact ih e' heq
      · simp only [Except.error.injEq] at h
        rw [← h]
        decide
    · exact ih e h

/-- `extract_dict_stages` never raises the parse error. -/
theorem eds_not_parseErr (values : List (String × Val)) (e : PyErr)
    (h : extract_dict_stages values = .error e) : e ≠ .parseErr := by
  unfold extract_dict_stages at h
  split at h
  next e' heq =>
    simp only [Except.error.injEq] at h
    rw [← h]
    exact edm_not_parseErr values e' heq
  next dm v₁ heq =>
    split at h
    next e' heq₂ =>
      simp only [Except.error.injEq] at h
      rw [← h]
      exact sks_not_parseErr v₁ e' heq₂
    next s₁ rk₁ heq₂ =>
      split at h
      next e' heq₃ =>
        simp only [Except.error.injEq] at h
        rw [← h]
        exact ssl_not_parseErr v₁ e' heq₃
      next s₂ rk₂ heq₃ => simp at h

/-- `remap_stages` never raises the parse error. -/
theorem remap_not_parseErr (values : List (String × Val)) (e : PyErr)
    (h : remap_stages values = .error e) : e ≠ .parseErr := by
  unfold remap_stages at h
  split at h
  next e' heq =>
    simp only [Except.error.injEq] at h
    rw [← h]
    exact edm_not_parseErr values e' heq
  next dm v₁ heq =>
    split at h
    next e' heq₂ =>
      simp only [Except.error.injEq] at h
      rw [← h]
      exact eds_not_parseErr v₁ e' heq₂
    next ex v₂ heq₂ => simp at h

/-- `validateModifiers` only raises `validation`. -/
theorem validateModifiers_not_parseErr (vs : List Val) (e : PyErr)
    (h : validateModifiers vs = .error e) : e ≠ .parseErr := by
  induction vs generalizing e with
  | nil => simp [validateModifiers] at h
  | cons v rest ih =>
    simp only [validateModifiers] at h
    split at h
    next e' heq =>
      simp only [Except.error.injEq] at h
      rw [← h]
      unfold validateModifier at heq
      split at heq
      · simp at heq
      · simp only [Except.error.injEq] at heq
        rw [← heq]
        decide
    next m heq =>
      split at h
      next e' heq₂ =>
        simp only [Except.error.injEq] at h
        rw [← h]
        exact ih e' heq₂
      next ms heq₂ => simp at h

/-- `stageModsSource` never raises the parse error. -/
theorem stageModsSource_not_parseErr (body : List (String × Val)) (e : PyErr)
    (h : stageModsSource body = .error e) : e ≠ .parseErr := by
  unfold stageModsSource at h
  split at h
  · simp at h
  · exact edm_not_parseErr body e h

/-- `validateStage` never raises the parse error. -/
theorem validateStage_not_parseErr (v : Val) (e : PyErr)
    (h : validateStage v = .error e) : e ≠ .parseErr := by
  unfold validateStage at h
  split at h
  next body =>
    split at h
    next group =>
      split at h
      next e' heq =>
        simp only [Except.error.injEq] at h
        rw [← h]
        exact stageModsSource_not_parseErr body e' heq
      next rawMods rest heq =>
        split at h
        next e' heq₂ =>
          simp only [Except.error.injEq] at h
          rw [← h]
          exact validateModifiers_not_parseErr rawMods e' heq₂
        next mods heq₂ => simp at h
    · simp only [Except.error.injEq] at h
      rw [← h]
      decide
  · simp only [Except.error.injEq] at h
    rw [← h]
    decide

/-- `validateStages` never raises the parse error. -/
theorem validateStages_not_parseErr (vs : List Val) (e : PyErr)
    (h : validateStages vs = .error e) : e ≠ .parseErr := by
  induction vs generalizing e with
  | nil => simp [validateStages] at h
  | cons v rest ih =>
    simp only [validateStages] at h
    split at h
    next e' heq =>
      simp only [Except.error.injEq] at h
      rw [← h]
      exact validateStage_not_parseErr v e' heq
    next s heq =>
      split at h
      next e' heq₂ =>
        simp only [Except.error.injEq] at h
        rw [← h]
        exact ih e' heq₂
      next ss heq₂ => simp at h

/-- Validation of a parsed mapping never raises the parse error: every
`RecipeParseError` of the string branch of `create_instance` comes from
`_load_json_or_yaml_string` itself. -/
theorem recipeValidate_not_parseErr (values : List (String × Val)) (e : PyErr)
    (h : recipeValidate values = .error e) : e ≠ .parseErr := by
  unfold recipeValidate at h
  split at h
  next e' heq =>
    simp only [Except.error.injEq] at h
    rw [← h]
    exact remap_not_parseErr values e' heq
  next fv heq =>
    split at h
    next e' heq₂ =>
      simp only [Except.error.injEq] at h
      rw [← h]
      exact validateStages_not_parseErr fv.stages e' heq₂
    next ss heq₂ => simp at h

/-- The value the string branch actually parses: `json.loads` first,
`yaml.safe_load` as the fallback. -/
def firstAccepted (jsonLoads yamlSafeLoad : String → Option Val) (s : String) :
    Option Val :=
  match jsonLoads s with
  | some v => some v
  | none => yamlSafeLoad s

/-- C5: the non-file string branch of `create_instance` fails with
`RecipeParseError` exactly when neither parser accepts the string or the
first accepted value is not a mapping (JSON is consulted first; YAML only
on JSON failure). -/
theorem c5_create_instance_parse_error (jsonLoads yamlSafeLoad : String → Option Val)
    (s : String) :
    create_instance_str jsonLoads yamlSafeLoad s = .error .parseErr ↔
      ((jsonLoads s = none ∧ yamlSafeLoad s = none) ∨
       (∃ v, firstAccepted jsonLoads yamlSafeLoad s = some v ∧ isDict v = false)) := by
  unfold create_instance_str load_json_or_yaml_string firstAccepted
  cases hj : jsonLoads s with
  | some v =>
    cases v with
    | vDict d =>
      simp only [isDict]
      constructor
      · intro h
        exact absurd rfl (recipeValidate_not_parseErr d .parseErr h)
      · rintro (⟨h1, h2⟩ | ⟨v', hv', hd⟩)
        · cases h1
        · rw [Option.some.injEq] at hv'
          rw [← hv'] at hd
          cases hd
    | vNull => simp [isDict]
    | vBool b => simp [isDict]
    | vInt n => simp [isDict]
    | vStr s' => simp [isDict]
    | vList l => simp [isDict]
  | none =>
    cases hy : yamlSafeLoad s with
    | some v =>
      cases v with
      | vDict d =>
        simp only [isDict]
        constructor
        · intro h
          exact absurd rfl (recipeValidate_not_parseErr d .parseErr h)
        · rintro (⟨h1, h2⟩ | ⟨v', hv', hd⟩)
          · cases h2
          · rw [Option.some.injEq] at hv'
            rw [← hv'] at hd
            cases hd
      | vNull => simp [isDict]
      | vBool b => simp [isDict]
      | vInt n => simp [isDict]
      | vStr s' => simp [isDict]
      | vList l => simp [isDict]
    | none => simp [isDict]

/-! ### Claim C3: `simplify_recipe` filtering and overrides -/

/-- C3 counterexample: with an *empty* target list — a value admitted by
the declared `RecipeStageInput` type — no filtering happens, although no
stage group is a member of the empty target set: the stage survives. -/
theorem c3_counterexample :
    simplify_recipe (fun _ => none) (fun _ => none)
      (some (.rcp ⟨none, [], [⟨"s1", none, []⟩]⟩)) (some []) none =
      .ok (.rcp ⟨none, [], [⟨"s1", none, []⟩]⟩) ∧
    ([⟨"s1", none, []⟩] : List RecipeStage).filter
      (fun s => ([] : List String).contains s.group) = [] :=
  ⟨rfl, rfl⟩

/-- C3 (amended): `None` or empty-list input yields the empty Recipe
without resolving further; a *non-empty* target list retains exactly the
stages whose group is a member, in original order; a *non-empty*
override mapping merges into args with override values winning — the
truthiness guards `if target_stage:` / `if override_args:` skip both
transformations on empty arguments. -/
theorem c3_simplify_recipe :
    (∀ (jp yp : String → Option Val) (tgt : Option (List String))
       (ov : Option (List (String × Val))),
       simplify_recipe jp yp none tgt ov = .ok (.rcp ⟨none, [], []⟩) ∧
       simplify_recipe jp yp (some (.list [])) tgt ov =
         .ok (.rcp ⟨none, [], []⟩)) ∧
    (∀ (jp yp : String → Option Val) (r : Recipe) (ts : List String)
       (ov : Option (List (String × Val))), ts ≠ [] →
       ∃ r', simplify_recipe jp yp (some (.rcp r)) (some ts) ov =
           .ok (.rcp r') ∧
         r'.stages = r.stages.filter (fun s => ts.contains s.group) ∧
         r'.version = r.version) ∧
    (∀ (jp yp : String → Option Val) (r : Recipe) (tgt : Option (List String))
       (o : List (String × Val)), o ≠ [] → (o.map Prod.fst).Nodup →
       ∃ r', simplify_recipe jp yp (some (.rcp r)) tgt (some o) =
           .ok (.rcp r') ∧
         (∀ k, aGet? r'.args k = lookupOr (aGet? o k) (aGet? r.args k)) ∧
         r'.version = r.version) := by
  refine ⟨fun jp yp tgt ov => ⟨rfl, rfl⟩, ?_, ?_⟩
  · intro jp yp r ts ov hts
    cases ts with
    | nil => exact absurd rfl hts
    | cons t ts' =>
      cases ov with
      | none => exact ⟨⟨r.version, r.args, _⟩, rfl, rfl, rfl⟩
      | some o =>
        cases o with
        | nil => exact ⟨⟨r.version, r.args, _⟩, rfl, rfl, rfl⟩
        | cons kv os =>
          exact ⟨⟨r.version, dictUpdate r.args (kv :: os), _⟩, rfl, rfl, rfl⟩
  · intro jp yp r tgt o ho hnd
    cases o with
    | nil => exact absurd rfl ho
    | cons kv os =>
      cases tgt with
      | none =>
        refine ⟨⟨r.version, dictUpdate r.args (kv :: os), r.stages⟩, rfl, ?_, rfl⟩
        intro k
        simpa using aGet?_dictUpdate r.args (kv :: os) k hnd
      | some ts =>
        cases ts with
        | nil =>
          refine ⟨⟨r.version, dictUpdate r.args (kv :: os), r.stages⟩, rfl, ?_, rfl⟩
          intro k
          simpa using aGet?_dictUpdate r.args (kv :: os) k hnd
        | cons t ts' =>
          refine ⟨⟨r.version, dictUpdate r.args (kv :: os),
            r.stages.filter (fun s => (t :: ts').contains s.group)⟩, rfl, ?_, rfl⟩
          intro k
          simpa using aGet?_dictUpdate r.args (kv :: os) k hnd

/-- C3 witness: filtering a concrete two-stage recipe down to `s1`, and
overriding a concrete args key. -/
theorem c3_witness :
    (∃ r', simplify_recipe (fun _ => none) (fun _ => none)
        (some (.rcp ⟨none, [("k", Val.vInt 1)],
          [⟨"s1", none, []⟩, ⟨"s2", none, []⟩]⟩)) (some ["s1"]) none =
        .ok (.rcp r') ∧
      r'.stages = ([⟨"s1", none, []⟩, ⟨"s2", none, []⟩] : List RecipeStage).filter
        (fun s => (["s1"] : List String).contains s.group) ∧
      r'.version = (⟨none, [("k", Val.vInt 1)],
        [⟨"s1", none, []⟩, ⟨"s2", none, []⟩]⟩ : Recipe).version) ∧
    (∃ r', simplify_recipe (fun _ => none) (fun _ => none)
        (some (.rcp ⟨none, [("k", Val.vInt 1)], []⟩)) none
        (some [("k", Val.vInt 5)]) = .ok (.rcp r') ∧
      (∀ k, aGet? r'.args k = lookupOr (aGet? [("k", Val.vInt 5)] k)
        (aGet? (⟨none, [("k", Val.vInt 1)], []⟩ : Recipe).args k)) ∧
      r'.version = (⟨none, [("k", Val.vInt 1)], []⟩ : Recipe).version) :=
  ⟨c3_simplify_recipe.2.1 (fun _ => none) (fun _ => none) _ ["s1"] none
     (List.cons_ne_nil _ _),
   c3_simplify_recipe.2.2 (fun _ => none) (fun _ => none) _ none
     [("k", Val.vInt 5)] (List.cons_ne_nil _ _) (by decide)⟩

/-! ### Claim C6: `MalformedStageError` conditions during normalization -/

theorem aGet?_mem {α : Type} (d : List (String × α)) (k : String) (v : α)
    (h : aGet? d k = some v) : (k, v) ∈ d := by
  induction d with
  | nil => simp [aGet?] at h
  | cons kv rest ih =>
    obtain ⟨k₀, v₀⟩ := kv
    by_cases hk : k₀ = k
    · subst hk
      have h' : v₀ = v := by simpa [aGet?] using h
      rw [← h']
      exact List.mem_cons_self _ _
    · simp only [aGet?, if_neg hk] at h
      exact List.mem_cons_of_mem _ (ih h)

theorem mem_aErase {α : Type} (d : List (String × α)) (k : String) (kv : String × α) :
    kv ∈ aErase d k ↔ kv ∈ d ∧ kv.1 ≠ k := by
  simp [aErase, List.mem_filter]

theorem mem_foldl_aErase {α : Type} (ks : List String) (d : List (String × α))
    (kv : String × α) (h : kv ∈ ks.foldl aErase d) : kv ∈ d ∧ kv.1 ∉ ks := by
  induction ks generalizing d with
  | nil => exact ⟨h, by simp⟩
  | cons k rest ih =>
    simp only [List.foldl_cons] at h
    obtain ⟨h1, h2⟩ := ih (aErase d k) h
    rw [mem_aErase] at h1
    refine ⟨h1.1, ?_⟩
    simp only [List.mem_cons, not_or]
    exact ⟨h1.2, h2⟩

theorem aGet?_foldl_aErase_mem {α : Type} (ks : List String) (d : List (String × α))
    (k : String) (hmem : k ∈ ks) : aGet? (ks.foldl aErase d) k = none := by
  cases hg : aGet? (ks.foldl aErase d) k with
  | none => rfl
  | some v =>
    have h := aGet?_mem _ _ _ hg
    have h2 := mem_foldl_aErase ks d (k, v) h
    exact absurd hmem h2.2

/-- Every binding whose key ends in `_modifiers` gets its key collected by
the suffix loop. -/
theorem edm_loop_collects (vs : List (String × Val)) (ms : List Val) (ks : List String)
    (h : extract_dict_modifiers_loop vs = .ok (ms, ks)) :
    ∀ kv ∈ vs, sEndsWith kv.1 "_modifiers" = true → kv.1 ∈ ks := by
  induction vs generalizing ms ks with
  | nil =>
    intro kv hkv
    cases hkv
  | cons kv₀ rest ih =>
    intro kv hkv hE
    obtain ⟨k₀, v₀⟩ := kv₀
    simp only [extract_dict_modifiers_loop] at h
    rcases List.mem_cons.mp hkv with h1 | h1
    · have hE₀ : sEndsWith k₀ "_modifiers" = true := by rw [h1] at hE; exact hE
      rw [if_pos hE₀] at h
      cases v₀ with
      | vDict entries =>
        cases hrest : extract_dict_modifiers_loop rest with
        | ok p =>
          obtain ⟨ms', ks'⟩ := p
          rw [hrest] at h
          simp only [Except.ok.injEq, Prod.mk.injEq] at h
          rw [← h.2, h1]
          exact List.mem_cons_self _ _
        | error e => rw [hrest] at h; simp at h
      | vNull => simp at h
      | vBool b => simp at h
      | vInt n => simp at h
      | vStr s => simp at h
      | vList l => simp at h
    · by_cases hE₀ : sEndsWith k₀ "_modifiers" = true
      · rw [if_pos hE₀] at h
        cases v₀ with
        | vDict entries =>
          cases hrest : extract_dict_modifiers_loop rest with
          | ok p =>
            obtain ⟨ms', ks'⟩ := p
            rw [hrest] at h
            simp only [Except.ok.injEq, Prod.mk.injEq] at h
            rw [← h.2]
            exact List.mem_cons_of_mem _ (ih ms' ks' hrest kv h1 hE)
          | error e => rw [hrest] at h; simp at h
        | vNull => simp at h
        | vBool b => simp at h
        | vInt n => simp at h
        | vStr s => simp at h
        | vList l => simp at h
      · rw [if_neg hE₀] at h
        exact ih ms ks h kv h1 hE

/-- When a truthy `modifiers` binding is visible, the bare step consumes
the key. -/
theorem bare_step_collects (values : List (String × Val)) (ms₀ : List Val)
    (rk₀ : List String) (h : bareModifiersStep values = .ok (ms₀, rk₀))
    (v : Val) (hv : aGet? values "modifiers" = some v) (ht : truthy v = true) :
    "modifiers" ∈ rk₀ := by
  unfold bareModifiersStep at h
  split at h
  next v' heq =>
    rw [hv, Option.some.injEq] at heq
    subst heq
    split at h
    · split at h
      next entries =>
        simp only [Except.ok.injEq, Prod.mk.injEq] at h
        rw [← h.2]
        simp
      next => simp at h
    next hnt => exact absurd ht hnt
  next heq => rw [hv] at heq; cases heq

/-- After a successful `extract_dict_modifiers`, the reduced mapping has
no key ending in `_modifiers` and no truthy `modifiers` binding. -/
theorem edm_ok_clean (values : List (String × Val)) (ms : List Val)
    (v₁ : List (String × Val)) (h : extract_dict_modifiers values = .ok (ms, v₁)) :
    (∀ kv ∈ v₁, sEndsWith kv.1 "_modifiers" = false) ∧
    (∀ v, aGet? v₁ "modifiers" = some v → truthy v = false) := by
  unfold extract_dict_modifiers at h
  split at h
  · simp at h
  next ms₀ rk₀ hb =>
    split at h
    · simp at h
    next ms₁ rk₁ hloop =>
      simp only [Except.ok.injEq, Prod.mk.injEq] at h
      have hv₁ : v₁ = (rk₀ ++ rk₁).foldl aErase values := h.2.symm
      constructor
      · intro kv hkv
        rw [hv₁] at hkv
        have hm := mem_foldl_aErase _ _ _ hkv
        cases hE' : sEndsWith kv.1 "_modifiers" with
        | false => rfl
        | true =>
          have hks := edm_loop_collects values ms₁ rk₁ hloop kv hm.1 hE'
          exact absurd (List.mem_append.mpr (Or.inr hks)) hm.2
      · intro v hv
        cases ht' : truthy v with
        | false => rfl
        | true =>
          by_cases hmem : "modifiers" ∈ rk₀ ++ rk₁
          · rw [hv₁, aGet?_foldl_aErase_mem _ _ _ hmem] at hv
            cases hv
          · rw [hv₁, aGet?_foldl_aErase _ _ _ hmem] at hv
            exact absurd
              (List.mem_append.mpr (Or.inl (bare_step_collects values ms₀ rk₀ hb v hv ht')))
              hmem

/-- The suffix loop is trivial on a mapping with no `_modifiers` keys. -/
theorem edm_loop_on_clean (vs : List (String × Val))
    (hclean : ∀ kv ∈ vs, sEndsWith kv.1 "_modifiers" = false) :
    extract_dict_modifiers_loop vs = .ok ([], []) := by
  induction vs with
  | nil => rfl
  | cons kv rest ih =>
    obtain ⟨k₀, v₀⟩ := kv
    have h₀ : sEndsWith k₀ "_modifiers" = false :=
      hclean (k₀, v₀) (List.mem_cons_self _ _)
    simp only [extract_dict_modifiers_loop]
    rw [if_neg (by simp [h₀])]
    exact ih (fun kv h => hclean kv (List.mem_cons_of_mem _ h))

/-- `extract_dict_modifiers` is idempotent on its own output mapping. -/
theorem edm_idempotent (values : List (String × Val)) (ms : List Val)
    (v₁ : List (String × Val)) (h : extract_dict_modifiers values = .ok (ms, v₁)) :
    extract_dict_modifiers v₁ = .ok ([], v₁) := by
  obtain ⟨hclean, hmod⟩ := edm_ok_clean values ms v₁ h
  have hbare : bareModifiersStep v₁ = .ok ([], []) := by
    unfold bareModifiersStep
    cases hm : aGet? v₁ "modifiers" with
    | none => rfl
    | some v => simp [hmod v hm]
  have hloop : extract_dict_modifiers_loop v₁ = .ok ([], []) :=
    edm_loop_on_clean v₁ hclean
  unfold extract_dict_modifiers
  rw [hbare, hloop]
  rfl

/-- A non-dict entry inside a truthy `stages` mapping makes the entries
loop raise `MalformedStageError`. -/
theorem sel_bad (entries : List (String × Val))
    (hbad : ∃ kv ∈ entries, isDict kv.2 = false) :
    stagesEntriesLoop entries = .error .malformedStage := by
  induction entries with
  | nil =>
    obtain ⟨kv, hm, _⟩ := hbad
    cases hm
  | cons kv₀ rest ih =>
    obtain ⟨k₀, v₀⟩ := kv₀
    simp only [stagesEntriesLoop]
    cases v₀ with
    | vDict body =>
      have hrest : ∃ kv ∈ rest, isDict kv.2 = false := by
        obtain ⟨kv, hm, hd⟩ := hbad
        rcases List.mem_cons.mp hm with h1 | h1
        · rw [h1] at hd
          simp [isDict] at hd
        · exact ⟨kv, h1, hd⟩
      rw [ih hrest]
    | vNull => rfl
    | vBool b => rfl
    | vInt n => rfl
    | vStr s => rfl
    | vList l => rfl

/-- A non-dict value under a `_stage` key makes the suffix-stage loop
raise `TypeError`. -/
theorem ssl_bad (vs : List (String × Val))
    (hbad : ∃ kv ∈ vs, sEndsWith kv.1 "_stage" = true ∧ isDict kv.2 = false) :
    suffixStagesLoop vs = .error .typeErr := by
  induction vs with
  | nil =>
    obtain ⟨kv, hm, _⟩ := hbad
    cases hm
  | cons kv₀ rest ih =>
    obtain ⟨k₀, v₀⟩ := kv₀
    simp only [suffixStagesLoop]
    by_cases hE : sEndsWith k₀ "_stage" = true
    · rw [if_pos hE]
      cases v₀ with
      | vDict body =>
        have hrest : ∃ kv ∈ rest, sEndsWith kv.1 "_stage" = true ∧ isDict kv.2 = false := by
          obtain ⟨kv, hm, hE', hd⟩ := hbad
          rcases List.mem_cons.mp hm with h1 | h1
          · rw [h1] at hd
            simp [isDict] at hd
          · exact ⟨kv, h1, hE', hd⟩
        rw [ih hrest]
      | vNull => rfl
      | vBool b => rfl
      | vInt n => rfl
      | vStr s => rfl
      | vList l => rfl
    · rw [if_neg hE]
      apply ih
      obtain ⟨kv, hm, hE', hd⟩ := hbad
      rcases List.mem_cons.mp hm with h1 | h1
      · rw [h1] at hE'
        exact absurd hE' hE
      · exact ⟨kv, h1, hE', hd⟩

/-- Failure propagation from `extract_dict_stages` into `remap_stages`. -/
theorem remap_err_of_eds_err (values : List (String × Val)) (ms : List Val)
    (v₁ : List (String × Val)) (e : PyErr)
    (h1 : extract_dict_modifiers values = .ok (ms, v₁))
    (h2 : extract_dict_stages v₁ = .error e) :
    remap_stages values = .error e := by
  simp only [remap_stages, h1, h2]

/-- Failure propagation from the `stages`-key step into
`extract_dict_stages` on an already-reduced mapping. -/
theorem eds_err_of_sks_err (v₁ : List (String × Val)) (e : PyErr)
    (hid : extract_dict_modifiers v₁ = .ok ([], v₁))
    (h2 : stagesKeyStep v₁ = .error e) :
    extract_dict_stages v₁ = .error e := by
  simp only [extract_dict_stages, hid, h2]

/-- Failure propagation from the suffix-stage loop into
`extract_dict_stages` on an already-reduced mapping. -/
theorem eds_err_of_ssl_err (v₁ : List (String × Val)) (s₁ : List Val)
    (rk₁ : List String) (e : PyErr)
    (hid : extract_dict_modifiers v₁ = .ok ([], v₁))
    (h2 : stagesKeyStep v₁ = .ok (s₁, rk₁))
    (h3 : suffixStagesLoop v₁ = .error e) :
    extract_dict_stages v₁ = .error e := by
  simp only [extract_dict_stages, hid, h2, h3]

/-- A truthy non-dict `stages` value trips the assert. -/
theorem sks_malformed_nondict (v₁ : List (String × Val)) (sv : Val)
    (hsv : aGet? v₁ "stages" = some sv) (ht : truthy sv = true)
    (hd : isDict sv = false) : stagesKeyStep v₁ = .error .malformedStage := by
  unfold stagesKeyStep
  cases sv with
  | vDict d => simp [isDict] at hd
  | vNull => simp [truthy] at ht
  | vBool b => simp [hsv, ht]
  | vInt n => simp [hsv, ht]
  | vStr s => simp [hsv, ht]
  | vList l => simp [hsv, ht]

/-- A non-dict entry of a `stages` mapping trips the per-entry assert. -/
theorem sks_malformed_entry (v₁ : List (String × Val))
    (entries : List (String × Val)) (kv : String × Val)
    (hsv : aGet? v₁ "stages" = some (.vDict entries)) (hkv : kv ∈ entries)
    (hd : isDict kv.2 = false) : stagesKeyStep v₁ = .error .malformedStage := by
  have ht : truthy (Val.vDict entries) = true := by
    cases entries with
    | nil => cases hkv
    | cons e es => rfl
  have hsel : stagesEntriesLoop entries = .error .malformedStage :=
    sel_bad entries ⟨kv, hkv, hd⟩
  simp [stagesKeyStep, hsv, ht, hsel]

/-- C6 counterexample: a *falsy* non-mapping `stages` value (the empty
list) raises nothing — the truthiness guard skips the assert, the key is
left unconsumed and lands in `args`. -/
theorem c6_counterexample :
    isDict (Val.vList []) = false ∧
    remap_stages [("stages", Val.vList [])] =
      .ok ⟨[], [("stages", Val.vList [])]⟩ :=
  ⟨rfl, rfl⟩

/-- C6 (amended): during normalization a *truthy* non-mapping value under
the top-level `stages` key, or a non-mapping entry of a truthy `stages`
mapping, fails with `MalformedStageError`; a non-mapping value under any
top-level `*_stage` key fails with a `TypeError` (the subscript
assignment `value["group"] = ...`); a falsy non-mapping `stages` value
raises nothing (see the counterexample). -/
theorem c6_malformed_stage :
    (∀ (values : List (String × Val)) (ms : List Val)
       (v₁ : List (String × Val)) (sv : Val),
      extract_dict_modifiers values = .ok (ms, v₁) →
      aGet? v₁ "stages" = some sv → truthy sv = true → isDict sv = false →
      remap_stages values = .error .malformedStage) ∧
    (∀ (values : List (String × Val)) (ms : List Val)
       (v₁ : List (String × Val)) (entries : List (String × Val))
       (kv : String × Val),
      extract_dict_modifiers values = .ok (ms, v₁) →
      aGet? v₁ "stages" = some (.vDict entries) →
      kv ∈ entries → isDict kv.2 = false →
      remap_stages values = .error .malformedStage) ∧
    (∀ (values : List (String × Val)) (ms : List Val)
       (v₁ : List (String × Val)) (s₁ : List Val) (rk₁ : List String)
       (kv : String × Val),
      extract_dict_modifiers values = .ok (ms, v₁) →
      stagesKeyStep v₁ = .ok (s₁, rk₁) →
      kv ∈ v₁ → sEndsWith kv.1 "_stage" = true → isDict kv.2 = false →
      remap_stages values = .error .typeErr) := by
  refine ⟨?_, ?_, ?_⟩
  · intro values ms v₁ sv hedm hsv ht hd
    exact remap_err_of_eds_err values ms v₁ _ hedm
      (eds_err_of_sks_err v₁ _ (edm_idempotent values ms v₁ hedm)
        (sks_malformed_nondict v₁ sv hsv ht hd))
  · intro values ms v₁ entries kv hedm hsv hkv hd
    exact remap_err_of_eds_err values ms v₁ _ hedm
      (eds_err_of_sks_err v₁ _ (edm_idempotent values ms v₁ hedm)
        (sks_malformed_entry v₁ entries kv hsv hkv hd))
  · intro values ms v₁ s₁ rk₁ kv hedm hsks hkv hE hd
    exact remap_err_of_eds_err values ms v₁ _ hedm
      (eds_err_of_ssl_err v₁ s₁ rk₁ _ (edm_idempotent values ms v₁ hedm) hsks
        (ssl_bad v₁ ⟨kv, hkv, hE, hd⟩))

/-- C6 witness: a truthy non-mapping `stages` value fails with
`MalformedStageError`, and a non-mapping `*_stage` value fails with a
`TypeError`. -/
theorem c6_witness :
    remap_stages [("stages", Val.vStr "x")] = .error .malformedStage ∧
    remap_stages [("foo_stage", Val.vInt 3)] = .error .typeErr :=
  ⟨c6_malformed_stage.1 [("stages", Val.vStr "x")] [] [("stages", Val.vStr "x")]
     (Val.vStr "x") rfl rfl rfl rfl,
   c6_malformed_stage.2.2 [("foo_stage", Val.vInt 3)] [] [("foo_stage", Val.vInt 3)]
     [] [] ("foo_stage", Val.vInt 3) rfl rfl (List.mem_cons_self _ _) (by decide) rfl⟩

/-! ### Claim C4: the normalized shape of `remap_stages` output -/

/-- The dict payload of a value (successful runs of the extraction loops
guarantee the value is a dict). -/
def dictEntries : Val → List (String × Val)
  | .vDict d => d
  | _ => []

/-- Spec-side description of the bare-`modifiers` contribution. -/
def bareSpec (values : List (String × Val)) : List Val :=
  match aGet? values "modifiers" with
  | some v => if truthy v then modsOfEntries (dictEntries v) "default" else []
  | none => []

/-- Spec-side description of the key the bare-`modifiers` step consumes. -/
def bareKeys (values : List (String × Val)) : List String :=
  match aGet? values "modifiers" with
  | some v => if truthy v then ["modifiers"] else []
  | none => []

/-- Spec-side description of the `_modifiers`-suffix contributions. -/
def modsLoopSpec (values : List (String × Val)) : List Val :=
  ((values.filter (fun kv => sEndsWith kv.1 "_modifiers")).map
    (fun kv => modsOfEntries (dictEntries kv.2) (sDropRight kv.1 10))).flatten

/-- Spec-side description of the keys the `_modifiers` loop consumes. -/
def modsLoopKeys (values : List (String × Val)) : List String :=
  (values.filter (fun kv => sEndsWith kv.1 "_modifiers")).map Prod.fst

/-- Spec-side description of the stages extracted from a truthy `stages`
mapping, in entry order, each tagged with its key as `group`. -/
def stagesEntriesSpec (values : List (String × Val)) : List Val :=
  match aGet? values "stages" with
  | some v =>
    if truthy v then
      (dictEntries v).map
        (fun kb => Val.vDict (aInsert (dictEntries kb.2) "group" (Val.vStr kb.1)))
    else []
  | none => []

/-- Spec-side description of the key the `stages` step consumes. -/
def stagesKeys (values : List (String × Val)) : List String :=
  match aGet? values "stages" with
  | some v => if truthy v then ["stages"] else []
  | none => []

/-- Spec-side description of the suffix-stage contributions, in key
order, each stage body tagged with the key minus its suffix as `group`. -/
def suffixStagesSpec (values : List (String × Val)) : List Val :=
  (values.filter (fun kv => sEndsWith kv.1 "_stage")).map
    (fun kv => Val.vDict (aInsert (dictEntries kv.2) "group"
      (Val.vStr (sDropRight kv.1 6))))

/-- Spec-side description of the keys the `_stage` loop consumes. -/
def suffixStageKeys (values : List (String × Val)) : List String :=
  (values.filter (fun kv => sEndsWith kv.1 "_stage")).map Prod.fst

theorem bare_step_ok_spec (values : List (String × Val)) (ms₀ : List Val)
    (rk₀ : List String) (h : bareModifiersStep values = .ok (ms₀, rk₀)) :
    ms₀ = bareSpec values ∧ rk₀ = bareKeys values := by
  unfold bareModifiersStep at h
  split at h
  next v heq =>
    split at h
    next ht =>
      split at h
      next entries =>
        simp only [Except.ok.injEq, Prod.mk.injEq] at h
        simp [bareSpec, bareKeys, heq, ht, dictEntries, ← h.1, ← h.2]
      next => simp at h
    next ht =>
      simp only [Except.ok.injEq, Prod.mk.injEq] at h
      simp [bareSpec, bareKeys, heq, ht, ← h.1, ← h.2]
  next heq =>
    simp only [Except.ok.injEq, Prod.mk.injEq] at h
    simp [bareSpec, bareKeys, heq, ← h.1, ← h.2]

theorem edm_loop_ok_spec (vs : List (String × Val)) (ms : List Val) (ks : List String)
    (h : extract_dict_modifiers_loop vs = .ok (ms, ks)) :
    ms = modsLoopSpec vs ∧ ks = modsLoopKeys vs := by
  induction vs generalizing ms ks with
  | nil =>
    simp only [extract_dict_modifiers_loop, Except.ok.injEq, Prod.mk.injEq] at h
    simp [modsLoopSpec, modsLoopKeys, ← h.1, ← h.2]
  | cons kv₀ rest ih =>
    obtain ⟨k₀, v₀⟩ := kv₀
    simp only [extract_dict_modifiers_loop] at h
    by_cases hE : sEndsWith k₀ "_modifiers" = true
    · rw [if_pos hE] at h
      cases v₀ with
      | vDict entries =>
        cases hrest : extract_dict_modifiers_loop rest with
        | ok p =>
          obtain ⟨ms', ks'⟩ := p
          rw [hrest] at h
          simp only [Except.ok.injEq, Prod.mk.injEq] at h
          obtain ⟨ihm, ihk⟩ := ih ms' ks' hrest
          rw [← h.1, ← h.2, ihm, ihk]
          simp [modsLoopSpec, modsLoopKeys, List.filter_cons, hE, dictEntries]
        | error e => rw [hrest] at h; simp at h
      | vNull => simp at h
      | vBool b => simp at h
      | vInt n => simp at h
      | vStr s => simp at h
      | vList l => simp at h
    · rw [if_neg hE] at h
      obtain ⟨ihm, ihk⟩ := ih ms ks h
      have hE' : sEndsWith k₀ "_modifiers" = false := Bool.eq_false_iff.mpr hE
      rw [ihm, ihk]
      simp [modsLoopSpec, modsLoopKeys, List.filter_cons, hE']

theorem sel_ok_spec (entries : List (String × Val)) (ss : List Val)
    (h : stagesEntriesLoop entries = .ok ss) :
    ss = entries.map
      (fun kb => Val.vDict (aInsert (dictEntries kb.2) "group" (Val.vStr kb.1))) := by
  induction entries generalizing ss with
  | nil =>
    simp only [stagesEntriesLoop, Except.ok.injEq] at h
    simp [← h]
  | cons kv₀ rest ih =>
    obtain ⟨k₀, v₀⟩ := kv₀
    simp only [stagesEntriesLoop] at h
    cases v₀ with
    | vDict body =>
      cases hrest : stagesEntriesLoop rest with
      | ok ss' =>
        rw [hrest] at h
        simp only [Except.ok.injEq] at h
        rw [← h, ih ss' hrest]
        simp [dictEntries]
      | error e => rw [hrest] at h; simp at h
    | vNull => simp at h
    | vBool b => simp at h
    | vInt n => simp at h
    | vStr s => simp at h
    | vList l => simp at h

theorem ssl_ok_spec (vs : List (String × Val)) (ss : List Val) (ks : List String)
    (h : suffixStagesLoop vs = .ok (ss, ks)) :
    ss = suffixStagesSpec vs ∧ ks = suffixStageKeys vs := by
  induction vs generalizing ss ks with
  | nil =>
    simp only [suffixStagesLoop, Except.ok.injEq, Prod.mk.injEq] at h
    simp [suffixStagesSpec, suffixStageKeys, ← h.1, ← h.2]
  | cons kv₀ rest ih =>
    obtain ⟨k₀, v₀⟩ := kv₀
    simp only [suffixStagesLoop] at h
    by_cases hE : sEndsWith k₀ "_stage" = true
    · rw [if_pos hE] at h
      cases v₀ with
      | vDict body =>
        cases hrest : suffixStagesLoop rest with
        | ok p =>
          obtain ⟨ss', ks'⟩ := p
          rw [hrest] at h
          simp only [Except.ok.injEq, Prod.mk.injEq] at h
          obtain ⟨ihs, ihk⟩ := ih ss' ks' hrest
          rw [← h.1, ← h.2, ihs, ihk]
          simp [suffixStagesSpec, suffixStageKeys, List.filter_cons, hE, dictEntries]
        | error e => rw [hrest] at h; simp at h
      | vNull => simp at h
      | vBool b => simp at h
      | vInt n => simp at h
      | vStr s => simp at h
      | vList l => simp at h
    · rw [if_neg hE] at h
      obtain ⟨ihs, ihk⟩ := ih ss ks h
      have hE' : sEndsWith k₀ "_stage" = false := Bool.eq_false_iff.mpr hE
      rw [ihs, ihk]
      simp [suffixStagesSpec, suffixStageKeys, List.filter_cons, hE']

theorem sks_ok_spec (values : List (String × Val)) (s₁ : List Val)
    (rk₁ : List String) (h : stagesKeyStep values = .ok (s₁, rk₁)) :
    s₁ = stagesEntriesSpec values ∧ rk₁ = stagesKeys values := by
  unfold stagesKeyStep at h
  split at h
  next v heq =>
    split at h
    next ht =>
      split at h
      next entries =>
        cases hsel : stagesEntriesLoop entries with
        | ok ss =>
          rw [hsel] at h
          simp only [Except.ok.injEq, Prod.mk.injEq] at h
          rw [← h.1, ← h.2, sel_ok_spec entries ss hsel]
          simp [stagesEntriesSpec, stagesKeys, heq, ht, dictEntries]
        | error e => rw [hsel] at h; simp at h
      next => simp at h
    next ht =>
      simp only [Except.ok.injEq, Prod.mk.injEq] at h
      simp [stagesEntriesSpec, stagesKeys, heq, ht, ← h.1, ← h.2]
  next heq =>
    simp only [Except.ok.injEq, Prod.mk.injEq] at h
    simp [stagesEntriesSpec, stagesKeys, heq, ← h.1, ← h.2]

theorem foldl_aErase_eq_filter {α : Type} (ks : List String) (d : List (String × α)) :
    ks.foldl aErase d = d.filter (fun kv => !(decide (kv.1 ∈ ks))) := by
  induction ks generalizing d with
  | nil => simp
  | cons k rest ih =>
    simp only [List.foldl_cons]
    rw [ih]
    unfold aErase
    rw [List.filter_filter]
    apply List.filter_congr
    intro kv _
    simp only [List.mem_cons, decide_not]
    cases hk : (kv.1 == k) with
    | true =>
      have : kv.1 = k := by simpa using hk
      simp [this]
    | false =>
      have : ¬ kv.1 = k := by simpa using hk
      simp [this]

theorem edm_ok_spec (values : List (String × Val)) (ms : List Val)
    (v₁ : List (String × Val)) (h : extract_dict_modifiers values = .ok (ms, v₁)) :
    ms = bareSpec values ++ modsLoopSpec values ∧
    v₁ = values.filter
      (fun kv => !(decide (kv.1 ∈ bareKeys values ++ modsLoopKeys values))) := by
  unfold extract_dict_modifiers at h
  split at h
  · simp at h
  next ms₀ rk₀ hb =>
    split at h
    · simp at h
    next ms₁ rk₁ hloop =>
      simp only [Except.ok.injEq, Prod.mk.injEq] at h
      obtain ⟨hbm, hbk⟩ := bare_step_ok_spec values ms₀ rk₀ hb
      obtain ⟨hlm, hlk⟩ := edm_loop_ok_spec values ms₁ rk₁ hloop
      constructor
      · rw [← h.1, hbm, hlm]
      · rw [← h.2, hbk, hlk, foldl_aErase_eq_filter]

theorem eds_ok_spec_clean (v₁ : List (String × Val)) (out : List Val)
    (v₂ : List (String × Val)) (hid : extract_dict_modifiers v₁ = .ok ([], v₁))
    (h : extract_dict_stages v₁ = .ok (out, v₂)) :
    out = stagesEntriesSpec v₁ ++ suffixStagesSpec v₁ ∧
    v₂ = v₁.filter
      (fun kv => !(decide (kv.1 ∈ stagesKeys v₁ ++ suffixStageKeys v₁))) := by
  unfold extract_dict_stages at h
  split at h
  · simp at h
  next dm v₁' hedm =>
    rw [hid] at hedm
    simp only [Except.ok.injEq, Prod.mk.injEq] at hedm
    obtain ⟨hdm, hv₁⟩ := hedm
    subst hv₁
    split at h
    · simp at h
    next s₁ rk₁ hsks =>
      split at h
      · simp at h
      next s₂ rk₂ hssl =>
        simp only [Except.ok.injEq, Prod.mk.injEq] at h
        obtain ⟨h1s, h1k⟩ := sks_ok_spec _ _ _ hsks
        obtain ⟨h2s, h2k⟩ := ssl_ok_spec _ _ _ hssl
        constructor
        · rw [← h.1, h1s, h2s, ← hdm]
          simp
        · rw [← h.2, h1k, h2k, foldl_aErase_eq_filter]

/-- A key cannot end in both `_stage` and `_modifiers`. -/
theorem not_stage_and_modifiers (k : String) (h : sEndsWith k "_stage" = true) :
    sEndsWith k "_modifiers" = false := by
  cases hm : sEndsWith k "_modifiers" with
  | false => rfl
  | true =>
    exfalso
    simp only [sEndsWith, decide_eq_true_eq] at h hm
    have hsuf := List.suffix_of_suffix_length_le h hm (by decide)
    revert hsuf
    decide

/-- A key ending in `_stage` is not the literal `modifiers`. -/
theorem stage_key_ne_modifiers (k : String) (h : sEndsWith k "_stage" = true) :
    k ≠ "modifiers" := by
  intro hc
  subst hc
  revert h
  decide

theorem modsLoopKeys_ends (values : List (String × Val)) (k : String)
    (h : k ∈ modsLoopKeys values) : sEndsWith k "_modifiers" = true := by
  unfold modsLoopKeys at h
  simp only [List.mem_map] at h
  obtain ⟨kv, hkv, hk⟩ := h
  rw [← hk]
  exact (List.mem_filter.mp hkv).2

theorem bareKeys_eq_modifiers (values : List (String × Val)) (k : String)
    (h : k ∈ bareKeys values) : k = "modifiers" := by
  unfold bareKeys at h
  split at h
  · split at h
    · simpa using h
    · cases h
  · cases h

/-- Filtering by `p` after a filter by a weaker predicate `q` is the same
as filtering by `p` alone. -/
theorem filter_absorb {α : Type} (l : List α) (p q : α → Bool)
    (himp : ∀ x, p x = true → q x = true) :
    (l.filter q).filter p = l.filter p := by
  rw [List.filter_filter]
  apply List.filter_congr
  intro x _
  cases hp : p x with
  | false => simp
  | true => simp [himp x hp]

/-- Stage-suffix bindings survive modifier-key consumption. -/
theorem stage_filter_congr (values : List (String × Val)) :
    (values.filter
      (fun kv => !(decide (kv.1 ∈ bareKeys values ++ modsLoopKeys values)))).filter
      (fun kv => sEndsWith kv.1 "_stage") =
    values.filter (fun kv => sEndsWith kv.1 "_stage") := by
  apply filter_absorb
  intro kv hE
  simp only [Bool.not_eq_true', decide_eq_false_iff_not, List.mem_append, not_or]
  constructor
  · intro hmem
    exact stage_key_ne_modifiers kv.1 hE (bareKeys_eq_modifiers values kv.1 hmem)
  · intro hmem
    have h1 := modsLoopKeys_ends values kv.1 hmem
    have h2 := not_stage_and_modifiers kv.1 hE
    rw [h1] at h2
    cases h2

theorem stagesEntriesSpec_congr (v₁ values : List (String × Val))
    (hget : aGet? v₁ "stages" = aGet? values "stages") :
    stagesEntriesSpec v₁ = stagesEntriesSpec values := by
  unfold stagesEntriesSpec
  rw [hget]

theorem stagesKeys_congr (v₁ values : List (String × Val))
    (hget : aGet? v₁ "stages" = aGet? values "stages") :
    stagesKeys v₁ = stagesKeys values := by
  unfold stagesKeys
  rw [hget]

theorem suffixStagesSpec_congr (v₁ values : List (String × Val))
    (hf : v₁.filter (fun kv => sEndsWith kv.1 "_stage") =
          values.filter (fun kv => sEndsWith kv.1 "_stage")) :
    suffixStagesSpec v₁ = suffixStagesSpec values := by
  unfold suffixStagesSpec
  rw [hf]

theorem suffixStageKeys_congr (v₁ values : List (String × Val))
    (hf : v₁.filter (fun kv => sEndsWith kv.1 "_stage") =
          values.filter (fun kv => sEndsWith kv.1 "_stage")) :
    suffixStageKeys v₁ = suffixStageKeys values := by
  unfold suffixStageKeys
  rw [hf]

theorem not_mem_decide_append (k : String) (A B C D : List String) :
    ((!decide (k ∈ C ++ D)) && (!decide (k ∈ A ++ B))) =
    (!decide (k ∈ A ++ B ++ C ++ D)) := by
  by_cases hA : k ∈ A <;> by_cases hB : k ∈ B <;> by_cases hC : k ∈ C <;>
    by_cases hD : k ∈ D <;> simp [List.mem_append, hA, hB, hC, hD]

/-- C4: a successful `remap_stages` produces exactly — in this order —
the `"default"` stage from the flat modifier shorthands when they are
non-empty, then one stage per entry of a truthy `stages` mapping, then
one stage per `*_stage` key in mapping order; `args` is the input mapping
restricted, in order, to the keys not consumed by those shapes. -/
theorem c4_remap_normalization (values : List (String × Val)) (fv : FormattedValues)
    (h : remap_stages values = .ok fv) :
    fv.stages =
      (if (bareSpec values ++ modsLoopSpec values).isEmpty then []
       else [defaultStageVal (bareSpec values ++ modsLoopSpec values)]) ++
      stagesEntriesSpec values ++ suffixStagesSpec values ∧
    fv.args = values.filter (fun kv =>
      !(decide (kv.1 ∈ bareKeys values ++ modsLoopKeys values ++
                stagesKeys values ++ suffixStageKeys values))) := by
  unfold remap_stages at h
  split at h
  · simp at h
  next dm v₁ hedm =>
    split at h
    · simp at h
    next ex v₂ heds =>
      simp only [Except.ok.injEq] at h
      obtain ⟨hdm, hv₁⟩ := edm_ok_spec values dm v₁ hedm
      have hid := edm_idempotent values dm v₁ hedm
      obtain ⟨hex, hv₂⟩ := eds_ok_spec_clean v₁ ex v₂ hid heds
      have hget : aGet? v₁ "stages" = aGet? values "stages" :=
        edm_preserves values dm v₁ hedm "stages" (by decide) (by decide)
      have hsf : v₁.filter (fun kv => sEndsWith kv.1 "_stage") =
          values.filter (fun kv => sEndsWith kv.1 "_stage") := by
        rw [hv₁]
        exact stage_filter_congr values
      constructor
      · rw [← h]
        show (if dm.isEmpty then [] else [defaultStageVal dm]) ++ ex = _
        rw [hdm, hex, stagesEntriesSpec_congr v₁ values hget,
            suffixStagesSpec_congr v₁ values hsf, List.append_assoc]
      · rw [← h]
        show v₂ = _
        rw [hv₂, stagesKeys_congr v₁ values hget,
            suffixStageKeys_congr v₁ values hsf, hv₁, List.filter_filter]
        apply List.filter_congr
        intro kv _
        exact not_mem_decide_append kv.1 (bareKeys values) (modsLoopKeys values)
          (stagesKeys values) (suffixStageKeys values)

/-- A concrete mapping exercising all three stage shapes plus a leftover
args key. -/
def sampleValues : List (String × Val) :=
  [("modifiers", Val.vDict [("M0", Val.vDict [])]),
   ("stages", Val.vDict [("s1",
      Val.vDict [("pruning_modifiers", Val.vDict [("M1", Val.vDict [])])])]),
   ("foo_stage", Val.vDict [("x", Val.vInt 1)]),
   ("lr", Val.vInt 3)]

/-- The normalized output of `sampleValues`. -/
def sampleFormatted : FormattedValues :=
  ⟨[defaultStageVal [rawModifier "M0" (Val.vDict []) "default"],
    Val.vDict [("pruning_modifiers", Val.vDict [("M1", Val.vDict [])]),
               ("group", Val.vStr "s1")],
    Val.vDict [("x", Val.vInt 1), ("group", Val.vStr "foo")]],
   [("lr", Val.vInt 3)]⟩

/-- C4 witness: the characterization instantiated on `sampleValues`. -/
theorem c4_witness :
    sampleFormatted.stages =
      (if (bareSpec sampleValues ++ modsLoopSpec sampleValues).isEmpty then []
       else [defaultStageVal (bareSpec sampleValues ++ modsLoopSpec sampleValues)]) ++
      stagesEntriesSpec sampleValues ++ suffixStagesSpec sampleValues ∧
    sampleFormatted.args = sampleValues.filter (fun kv =>
      !(decide (kv.1 ∈ bareKeys sampleValues ++ modsLoopKeys sampleValues ++
                stagesKeys sampleValues ++ suffixStageKeys sampleValues))) :=
  c4_remap_normalization sampleValues sampleFormatted rfl

/-! ### Claim C8: stage-key naming during serialization -/

/-- Keys in first-seen order. -/
def dedupKeys (l : List String) : List String :=
  l.foldl (fun acc k => if k ∈ acc then acc else acc ++ [k]) []

/-- The distinct element keys of a list, in first-seen order. -/
def firstSeenKeys {α : Type} (key : α → String) (xs : List α) : List String :=
  dedupKeys (xs.map key)

theorem dedupKeys_append_last (l : List String) (k : String) :
    dedupKeys (l ++ [k]) =
      if k ∈ dedupKeys l then dedupKeys l else dedupKeys l ++ [k] := by
  unfold dedupKeys
  rw [List.foldl_append]
  rfl

theorem mem_dedupKeys (l : List String) (k : String) : k ∈ dedupKeys l ↔ k ∈ l := by
  induction l using List.reverseRecOn with
  | nil => simp [dedupKeys]
  | append_singleton l x ih =>
    rw [dedupKeys_append_last]
    by_cases hx : x ∈ dedupKeys l
    · rw [if_pos hx]
      simp only [List.mem_append, List.mem_singleton]
      constructor
      · intro h
        exact Or.inl (ih.mp h)
      · rintro (h | h)
        · exact ih.mpr h
        · rw [h]
          exact hx
    · rw [if_neg hx]
      simp [ih]

theorem nodup_dedupKeys (l : List String) : (dedupKeys l).Nodup := by
  induction l using List.reverseRecOn with
  | nil => simp [dedupKeys]
  | append_singleton l x ih =>
    rw [dedupKeys_append_last]
    by_cases hx : x ∈ dedupKeys l
    · rw [if_pos hx]
      exact ih
    · rw [if_neg hx]
      simpa [List.nodup_append] using ⟨ih, hx⟩

theorem mem_firstSeenKeys {α : Type} (key : α → String) (xs : List α) (x : α)
    (h : x ∈ xs) : key x ∈ firstSeenKeys key xs :=
  (mem_dedupKeys _ _).mpr (List.mem_map_of_mem key h)

theorem aGet?_map_self {β : Type} (ns : List String) (f : String → β) (k : String) :
    aGet? (ns.map (fun n => (n, f n))) k = if k ∈ ns then some (f k) else none := by
  induction ns with
  | nil => simp [aGet?]
  | cons n ns' ih =>
    by_cases hn : n = k
    · subst hn
      simp [aGet?]
    · have hnk : ¬ k = n := fun hc => hn hc.symm
      simp only [List.map_cons, aGet?, if_neg hn, ih, List.mem_cons]
      by_cases hk : k ∈ ns' <;> simp [hk, hnk]

theorem aInsert_map_self {β : Type} (ns : List String) (f : String → β) (k : String)
    (v : β) (hnd : ns.Nodup) (hmem : k ∈ ns) :
    aInsert (ns.map (fun n => (n, f n))) k v =
      ns.map (fun n => (n, if n = k then v else f n)) := by
  induction ns with
  | nil => cases hmem
  | cons n ns' ih =>
    simp only [List.nodup_cons] at hnd
    by_cases hn : n = k
    · subst hn
      simp only [List.map_cons, aInsert, if_pos rfl]
      refine List.cons_eq_cons.mpr ⟨by simp, ?_⟩
      apply List.map_congr_left
      intro a ha
      have hna : ¬ a = n := fun hc => hnd.1 (hc ▸ ha)
      simp [hna]
    · rcases List.mem_cons.mp hmem with h1 | h1
      · exact absurd h1.symm hn
      · simp only [List.map_cons, aInsert, if_neg hn, ih hnd.2 h1, if_neg hn]

theorem aContains_map_self {β : Type} (ns : List String) (f : String → β)
    (k : String) :
    aContains (ns.map (fun n => (n, f n))) k = decide (k ∈ ns) := by
  unfold aContains
  rw [aGet?_map_self]
  by_cases h : k ∈ ns <;> simp [h]

theorem aModify_map_self {β : Type} (ns : List String) (f : String → β) (k : String)
    (g : β → β) (hnd : ns.Nodup) (hmem : k ∈ ns) :
    aModify (ns.map (fun n => (n, f n))) k g =
      ns.map (fun n => (n, if n = k then g (f k) else f n)) := by
  induction ns with
  | nil => cases hmem
  | cons n ns' ih =>
    simp only [List.nodup_cons] at hnd
    by_cases hn : n = k
    · subst hn
      simp only [List.map_cons, aModify, if_pos rfl]
      refine List.cons_eq_cons.mpr ⟨by simp, ?_⟩
      apply List.map_congr_left
      intro a ha
      have hna : ¬ a = n := fun hc => hnd.1 (hc ▸ ha)
      simp [hna]
    · rcases List.mem_cons.mp hmem with h1 | h1
      · exact absurd h1.symm hn
      · simp only [List.map_cons, aModify, if_neg hn, ih hnd.2 h1, if_neg hn]

theorem groupFold_append_spec {α γ : Type} (key : α → String) (emb : α → γ)
    (xs : List α) :
    groupFold key (fun x => [emb x]) (fun b x => b ++ [emb x]) xs =
      (firstSeenKeys key xs).map (fun n =>
        (n, (xs.filter (fun x => key x == n)).map emb)) := by
  induction xs using List.reverseRecOn with
  | nil => rfl
  | append_singleton xs x ih =>
    unfold groupFold at ih ⊢
    rw [List.foldl_append, ih]
    have hFS : firstSeenKeys key (xs ++ [x]) =
        if key x ∈ firstSeenKeys key xs then firstSeenKeys key xs
        else firstSeenKeys key xs ++ [key x] := by
      unfold firstSeenKeys
      rw [List.map_append, List.map_singleton, dedupKeys_append_last]
    simp only [List.foldl_cons, List.foldl_nil]
    rw [aContains_map_self]
    by_cases hmem : key x ∈ firstSeenKeys key xs
    · rw [if_pos (decide_eq_true hmem), hFS, if_pos hmem,
        aModify_map_self (firstSeenKeys key xs)
          (fun n => (xs.filter (fun y => key y == n)).map emb) (key x)
          (fun b => b ++ [emb x]) (nodup_dedupKeys _) hmem]
      apply List.map_congr_left
      intro n hn
      rw [List.filter_append]
      by_cases hnx : n = key x
      · subst hnx
        simp [List.filter_cons]
      · have hx : (key x == n) = false := by
          simp only [beq_eq_false_iff_ne, ne_eq]
          exact fun hc => hnx hc.symm
        simp [List.filter_cons, hx, hnx]
    · have hdec : decide (key x ∈ firstSeenKeys key xs) = false := by
        simp [hmem]
      rw [hdec, if_neg (by simp), hFS, if_neg hmem, List.map_append,
        List.map_singleton]
      congr 1
      · apply List.map_congr_left
        intro n hn
        rw [List.filter_append]
        have hnx : ¬ n = key x := fun hc => hmem (hc ▸ hn)
        have hx : (key x == n) = false := by
          simp only [beq_eq_false_iff_ne, ne_eq]
          exact fun hc => hnx hc.symm
        simp [List.filter_cons, hx]
      · have hfe : xs.filter (fun y => key y == key x) = [] := by
          rw [List.filter_eq_nil_iff]
          intro y hy
          simp only [beq_iff_eq]
          intro hc
          exact hmem (hc ▸ mem_firstSeenKeys key xs y hy)
        rw [List.filter_append, hfe]
        simp [List.filter_cons]

theorem dictStages_spec (stages : List RecipeStage) :
    dictStages stages =
      (firstSeenKeys (fun s => s.group ++ "_stage") stages).map (fun n =>
        (n, stages.filter (fun s => s.group ++ "_stage" == n))) := by
  have h := groupFold_append_spec (fun s => s.group ++ "_stage") id stages
  simpa [dictStages] using h

theorem map_snd_zip_map {γ δ : Type} (g : γ → δ) :
    ∀ (l₁ : List Nat) (sl : List γ), l₁.length = sl.length →
      (l₁.zip sl).map (fun is => g is.2) = sl.map g := by
  intro l₁
  induction l₁ with
  | nil =>
    intro sl h
    cases sl with
    | nil => rfl
    | cons s sl' => simp at h
  | cons a l ih =>
    intro sl h
    cases sl with
    | nil => simp at h
    | cons s sl' =>
      simp only [List.zip_cons_cons, List.map_cons]
      rw [ih sl' (by simpa using h)]

/-- C8: each stage is emitted under `"<group>_stage"`; when several
stages share a group, every occurrence — the first included — is keyed
`"<group>_stage_<idx>"` with `idx` its 0-based position among the stages
of that group; a group with exactly one stage keeps the plain key.  In
particular, combining two recipes that each have a stage named `s1` and
serializing yields the keys `s1_stage_0` and `s1_stage_1`. -/
theorem c8_stage_key_naming :
    (∀ r : Recipe,
      emitStages (dictStages r.stages) =
        ((firstSeenKeys (fun s => s.group ++ "_stage") r.stages).map (fun n =>
          (fun sl =>
            if sl.length > 1 then
              ((List.range sl.length).zip sl).map (fun is =>
                (n ++ "_" ++ toString is.1, Val.vDict (stageBody is.2)))
            else sl.map (fun s => (n, Val.vDict (stageBody s))))
          (r.stages.filter (fun s => s.group ++ "_stage" == n)))).flatten) ∧
    (Recipe.getYamlDict (simplify_combine_recipes (fun _ => none) (fun _ => none)
        [⟨none, [], [⟨"s1", none, [⟨"M1", "default", [("a", Val.vInt 1)]⟩]⟩]⟩,
         ⟨none, [], [⟨"s1", none, [⟨"M2", "default", []⟩]⟩]⟩])).map Prod.fst =
      ["s1_stage_0", "s1_stage_1"] := by
  constructor
  · intro r
    rw [emitStages, dictStages_spec, List.map_map]
    congr 1
    apply List.map_congr_left
    intro n _
    simp only [Function.comp_apply]
    by_cases hlen :
      (r.stages.filter (fun s => s.group ++ "_stage" == n)).length > 1
    · rw [if_pos hlen]
      apply List.map_congr_left
      intro is _
      rw [if_pos hlen]
    · rw [if_neg hlen]
      have h1 : ((List.range
            (r.stages.filter (fun s => s.group ++ "_stage" == n)).length).zip
            (r.stages.filter (fun s => s.group ++ "_stage" == n))).map
          (fun is =>
            ((if (r.stages.filter (fun s => s.group ++ "_stage" == n)).length > 1
              then n ++ "_" ++ toString is.1 else n),
             Val.vDict (stageBody is.2))) =
          ((List.range
            (r.stages.filter (fun s => s.group ++ "_stage" == n)).length).zip
            (r.stages.filter (fun s => s.group ++ "_stage" == n))).map
          (fun is => (n, Val.vDict (stageBody is.2))) :=
        List.map_congr_left (fun is _ => by rw [if_neg hlen])
      rw [h1, map_snd_zip_map (fun s => (n, Val.vDict (stageBody s))) _ _
        (List.length_range _)]
  · rfl

/-! ### Claim C1: round-trip of serialization and parsing -/

theorem dedupKeys_of_nodup (l : List String) (h : l.Nodup) : dedupKeys l = l := by
  induction l using List.reverseRecOn with
  | nil => rfl
  | append_singleton l x ih =>
    rw [List.nodup_append] at h
    rw [dedupKeys_append_last, if_neg, ih h.1]
    rw [mem_dedupKeys]
    intro hc
    exact h.2.2 hc (List.mem_singleton.mpr rfl)

/-- With pairwise-distinct keys, the per-key filter is the singleton. -/
theorem filter_key_singleton {α : Type} (key : α → String) (xs : List α)
    (hnd : (xs.map key).Nodup) (x₀ : α) (hx : x₀ ∈ xs) :
    xs.filter (fun x => key x == key x₀) = [x₀] := by
  induction xs with
  | nil => cases hx
  | cons y ys ih =>
    simp only [List.map_cons, List.nodup_cons] at hnd
    rcases List.mem_cons.mp hx with h1 | h1
    · subst h1
      rw [List.filter_cons, if_pos (by simp)]
      have hrest : ys.filter (fun x => key x == key x₀) = [] := by
        rw [List.filter_eq_nil_iff]
        intro y hy
        simp only [beq_iff_eq]
        intro hc
        exact hnd.1 (hc ▸ List.mem_map_of_mem key hy)
      rw [hrest]
    · have hne : (key y == key x₀) = false := by
        simp only [beq_eq_false_iff_ne, ne_eq]
        intro hc
        exact hnd.1 (hc ▸ List.mem_map_of_mem key h1)
      rw [List.filter_cons, if_neg (by simp [hne]), ih hnd.2 h1]

theorem aInsert_append_of_not_mem {α : Type} (d : List (String × α)) (k : String)
    (v : α) (h : aGet? d k = none) : aInsert d k v = d ++ [(k, v)] := by
  induction d with
  | nil => rfl
  | cons kv rest ih =>
    obtain ⟨k₀, v₀⟩ := kv
    by_cases hk : k₀ = k
    · subst hk
      simp [aGet?] at h
    · simp only [aGet?, if_neg hk] at h
      simp only [aInsert, if_neg hk, List.cons_append, ih h]

theorem foldl_aInsert_fresh (l : List (String × Val)) :
    ∀ (acc : List (String × Val)), (l.map Prod.fst).Nodup →
      (∀ k ∈ l.map Prod.fst, aGet? acc k = none) →
      l.foldl (fun t kv => aInsert t kv.1 kv.2) acc = acc ++ l := by
  induction l with
  | nil => intro acc _ _; simp
  | cons kv rest ih =>
    intro acc hnd hfresh
    obtain ⟨k, v⟩ := kv
    simp only [List.map_cons, List.nodup_cons] at hnd
    simp only [List.foldl_cons]
    rw [aInsert_append_of_not_mem acc k v
      (hfresh k (by simp))]
    rw [ih (acc ++ [(k, v)]) hnd.2 ?_]
    · simp
    · intro k' hk'
      rw [aGet?_append]
      rw [hfresh k' (by simp [hk'])]
      have hne : ¬ k = k' := fun hc => hnd.1 (hc ▸ hk')
      simp [aGet?, hne]

theorem flatten_map_singleton {α β : Type} (f : α → β) (l : List α) :
    (l.map (fun x => [f x])).flatten = l.map f := by
  induction l with
  | nil => rfl
  | cons x xs ih => simp [ih]

/-- The `_modifiers` loop succeeds and computes its spec when every
`_modifiers` value is a dict. -/
theorem edm_loop_ok_of_good (vs : List (String × Val))
    (hgood : ∀ kv ∈ vs, sEndsWith kv.1 "_modifiers" = true → isDict kv.2 = true) :
    extract_dict_modifiers_loop vs = .ok (modsLoopSpec vs, modsLoopKeys vs) := by
  induction vs with
  | nil => rfl
  | cons kv rest ih =>
    obtain ⟨k₀, v₀⟩ := kv
    have ihg : ∀ kv ∈ rest, sEndsWith kv.1 "_modifiers" = true → isDict kv.2 = true :=
      fun kv h => hgood kv (List.mem_cons_of_mem _ h)
    simp only [extract_dict_modifiers_loop]
    by_cases hE : sEndsWith k₀ "_modifiers" = true
    · rw [if_pos hE]
      have hd : isDict v₀ = true := hgood (k₀, v₀) (List.mem_cons_self _ _) hE
      cases v₀ with
      | vDict entries =>
        rw [ih ihg]
        simp [modsLoopSpec, modsLoopKeys, List.filter_cons, hE, dictEntries]
      | vNull => simp [isDict] at hd
      | vBool b => simp [isDict] at hd
      | vInt n => simp [isDict] at hd
      | vStr s => simp [isDict] at hd
      | vList l => simp [isDict] at hd
    · rw [if_neg hE]
      rw [ih ihg]
      have hE' : sEndsWith k₀ "_modifiers" = false := Bool.eq_false_iff.mpr hE
      simp [modsLoopSpec, modsLoopKeys, List.filter_cons, hE']

/-- The `_stage` loop succeeds and computes its spec when every `_stage`
value is a dict. -/
theorem ssl_ok_of_good (vs : List (String × Val))
    (hgood : ∀ kv ∈ vs, sEndsWith kv.1 "_stage" = true → isDict kv.2 = true) :
    suffixStagesLoop vs = .ok (suffixStagesSpec vs, suffixStageKeys vs) := by
  induction vs with
  | nil => rfl
  | cons kv rest ih =>
    obtain ⟨k₀, v₀⟩ := kv
    have ihg : ∀ kv ∈ rest, sEndsWith kv.1 "_stage" = true → isDict kv.2 = true :=
      fun kv h => hgood kv (List.mem_cons_of_mem _ h)
    simp only [suffixStagesLoop]
    by_cases hE : sEndsWith k₀ "_stage" = true
    · rw [if_pos hE]
      have hd : isDict v₀ = true := hgood (k₀, v₀) (List.mem_cons_self _ _) hE
      cases v₀ with
      | vDict body =>
        rw [ih ihg]
        simp [suffixStagesSpec, suffixStageKeys, List.filter_cons, hE, dictEntries]
      | vNull => simp [isDict] at hd
      | vBool b => simp [isDict] at hd
      | vInt n => simp [isDict] at hd
      | vStr s => simp [isDict] at hd
      | vList l => simp [isDict] at hd
    · rw [if_neg hE]
      rw [ih ihg]
      have hE' : sEndsWith k₀ "_stage" = false := Bool.eq_false_iff.mpr hE
      simp [suffixStagesSpec, suffixStageKeys, List.filter_cons, hE']

/-- With no `stages` key, the `stages`-key step is trivial. -/
theorem sks_ok_of_none (values : List (String × Val))
    (h : aGet? values "stages" = none) : stagesKeyStep values = .ok ([], []) := by
  simp [stagesKeyStep, h]

/-- `extract_dict_modifiers` is trivial on a mapping with no modifier
shapes. -/
theorem edm_ok_of_clean (v : List (String × Val))
    (hclean : ∀ kv ∈ v, sEndsWith kv.1 "_modifiers" = false)
    (hbare : aGet? v "modifiers" = none) :
    extract_dict_modifiers v = .ok ([], v) := by
  have hb : bareModifiersStep v = .ok ([], []) := by
    simp [bareModifiersStep, hbare]
  have hl : extract_dict_modifiers_loop v = .ok ([], []) :=
    edm_loop_on_clean v hclean
  unfold extract_dict_modifiers
  rw [hb, hl]
  rfl

/-- With unique `(group, type)` pairs, the inner `aInsert`s of
`get_yaml_serializable_stage_dict` never hit an existing type key, so the
regrouping is a pure group-by: per first-seen `"<group>_modifiers"` name,
the stage's modifiers of that group in order, as `(type, args)` entries. -/
theorem sdb_spec (mods : List RecipeModifier)
    (huniq : (mods.map (fun m => (m.group, m.type))).Nodup) :
    get_yaml_serializable_stage_dict mods =
      (firstSeenKeys (fun m => m.group ++ "_modifiers") mods).map (fun n =>
        (n, (mods.filter (fun m => m.group ++ "_modifiers" == n)).map
             (fun m => (m.type, Val.vDict m.args)))) := by
  induction mods using List.reverseRecOn with
  | nil => rfl
  | append_singleton xs x ih =>
    rw [List.map_append, List.nodup_append] at huniq
    obtain ⟨hxs, _, hdisj⟩ := huniq
    have hnotin : (x.group, x.type) ∉ xs.map (fun m => (m.group, m.type)) :=
      fun hc => hdisj hc (by simp)
    unfold get_yaml_serializable_stage_dict groupFold at ih ⊢
    rw [List.foldl_append, ih hxs]
    have hFS : firstSeenKeys (fun m => m.group ++ "_modifiers") (xs ++ [x]) =
        if x.group ++ "_modifiers" ∈ firstSeenKeys (fun m => m.group ++ "_modifiers") xs
        then firstSeenKeys (fun m => m.group ++ "_modifiers") xs
        else firstSeenKeys (fun m => m.group ++ "_modifiers") xs
          ++ [x.group ++ "_modifiers"] := by
      unfold firstSeenKeys
      rw [List.map_append, List.map_singleton, dedupKeys_append_last]
    simp only [List.foldl_cons, List.foldl_nil]
    rw [aContains_map_self]
    by_cases hmem : x.group ++ "_modifiers"
        ∈ firstSeenKeys (fun m => m.group ++ "_modifiers") xs
    · rw [if_pos (decide_eq_true hmem), hFS, if_pos hmem,
        aModify_map_self (firstSeenKeys (fun m => m.group ++ "_modifiers") xs)
          (fun n => (xs.filter (fun m => m.group ++ "_modifiers" == n)).map
            (fun m => (m.type, Val.vDict m.args)))
          (x.group ++ "_modifiers")
          (fun inner => aInsert inner x.type (Val.vDict x.args))
          (nodup_dedupKeys _) hmem]
      apply List.map_congr_left
      intro n hn
      rw [List.filter_append]
      by_cases hnx : n = x.group ++ "_modifiers"
      · subst hnx
        have hfresh : aGet?
            ((xs.filter (fun m => m.group ++ "_modifiers" == x.group ++ "_modifiers")).map
              (fun m => (m.type, Val.vDict m.args))) x.type = none := by
          apply aGet?_eq_none_of_not_mem
          intro hc
          rw [List.map_map] at hc
          obtain ⟨m, hm, hmt⟩ := List.mem_map.mp hc
          have hmf := List.mem_filter.mp hm
          have hgr : m.group = x.group :=
            append_right_cancel_str (by simpa using hmf.2)
          have hmt' : m.type = x.type := by simpa using hmt
          exact hnotin (by
            refine List.mem_map.mpr ⟨m, hmf.1, ?_⟩
            rw [hgr, hmt'])
        rw [aInsert_append_of_not_mem _ _ _ hfresh]
        simp [List.filter_cons]
      · have hx : (x.group ++ "_modifiers" == n) = false := by
          simp only [beq_eq_false_iff_ne, ne_eq]
          exact fun hc => hnx hc.symm
        simp [List.filter_cons, hx, hnx]
    · have hdec : decide (x.group ++ "_modifiers"
          ∈ firstSeenKeys (fun m => m.group ++ "_modifiers") xs) = false := by
        simp [hmem]
      rw [hdec, if_neg (by simp), hFS, if_neg hmem, List.map_append,
        List.map_singleton]
      congr 1
      · apply List.map_congr_left
        intro n hn
        rw [List.filter_append]
        have hnx : ¬ n = x.group ++ "_modifiers" := fun hc => hmem (hc ▸ hn)
        have hx : (x.group ++ "_modifiers" == n) = false := by
          simp only [beq_eq_false_iff_ne, ne_eq]
          exact fun hc => hnx hc.symm
        simp [List.filter_cons, hx]
      · have hfe : xs.filter
            (fun m => m.group ++ "_modifiers" == x.group ++ "_modifiers") = [] := by
          rw [List.filter_eq_nil_iff]
          intro m hm
          simp only [beq_iff_eq]
          intro hc
          exact hmem (hc ▸ mem_firstSeenKeys (fun m => m.group ++ "_modifiers") xs m hm)
        rw [List.filter_append, hfe]
        simp [List.filter_cons, aInsert]

theorem dedupKeys_map_append (l : List String) (suf : String) :
    dedupKeys (l.map (fun g => g ++ suf)) = (dedupKeys l).map (fun g => g ++ suf) := by
  induction l using List.reverseRecOn with
  | nil => rfl
  | append_singleton l x ih =>
    have hiff : (x ++ suf ∈ (dedupKeys l).map (fun g => g ++ suf)) ↔
        x ∈ dedupKeys l := by
      constructor
      · intro h
        obtain ⟨g, hg, heq⟩ := List.mem_map.mp h
        have hgx : g = x := append_right_cancel_str heq
        exact hgx ▸ hg
      · exact fun h => List.mem_map_of_mem _ h
    by_cases hmem : x ∈ dedupKeys l
    · simp only [List.map_append, List.map_singleton, dedupKeys_append_last, ih,
        if_pos hmem, if_pos (hiff.mpr hmem)]
    · simp only [List.map_append, List.map_singleton, dedupKeys_append_last, ih,
        if_neg hmem, if_neg (fun hc => hmem (hiff.mp hc))]

/-- Appending a common suffix to the grouping key commutes with first-seen
deduplication. -/
theorem firstSeenKeys_suffix (mods : List RecipeModifier) (suf : String) :
    firstSeenKeys (fun m => m.group ++ suf) mods =
      (firstSeenKeys (fun m => m.group) mods).map (fun g => g ++ suf) := by
  unfold firstSeenKeys
  rw [← dedupKeys_map_append]
  congr 1
  simp [Function.comp]

theorem filter_group_append (mods : List RecipeModifier) (g suf : String) :
    mods.filter (fun m => m.group ++ suf == g ++ suf) =
      mods.filter (fun m => m.group == g) := by
  apply List.filter_congr
  intro m _
  cases hm : (m.group == g) with
  | true =>
    have : m.group = g := by simpa using hm
    simp [this]
  | false =>
    have hne : ¬ m.group = g := by simpa using hm
    have hne' : ¬ m.group ++ suf = g ++ suf :=
      fun hc => hne (append_right_cancel_str hc)
    simp [hne, hne']

/-- The modifier block of a serialized stage body, in plain-group form:
one `"<group>_modifiers"` entry per first-seen group, holding that
group's modifiers in order as `{type: args}` entries. -/
def bodyCore (mods : List RecipeModifier) : List (String × Val) :=
  (firstSeenKeys (fun m => m.group) mods).map (fun g =>
    (g ++ "_modifiers", Val.vDict ((mods.filter (fun m => m.group == g)).map
      (fun m => (m.type, Val.vDict m.args)))))

/-- The `run_type` entry of a serialized stage body: present exactly when
the stage's run type is truthy. -/
def runTypePart (s : RecipeStage) : List (String × Val) :=
  match s.run_type with
  | some rt => if rt = "" then [] else [("run_type", Val.vStr rt)]
  | none => []

/-- The recipe-level head of the serialized dict: `version` when truthy,
then `args` when non-empty. -/
def topPart (r : Recipe) : List (String × Val) :=
  (match r.version with
   | some v => if v = "" then [] else [("version", Val.vStr v)]
   | none => [])
  ++ (if r.args.isEmpty then [] else [("args", Val.vDict r.args)])

/-- A modifier list regrouped by first-seen group, the order the
serializer emits: for each group in first-seen order, its modifiers in
list order.  A list fixed by this map is group-contiguous. -/
def regroupMods (mods : List RecipeModifier) : List RecipeModifier :=
  ((firstSeenKeys (fun m => m.group) mods).map
    (fun g => mods.filter (fun m => m.group == g))).flatten

/-- Run-type/group consistency: a stored run type is truthy, and a stage
without one does not carry a group name (`oneshot`/`train`) that parsing
would re-infer a run type from. -/
def runTypeOK (s : RecipeStage) : Prop :=
  match s.run_type with
  | some rt => rt ≠ ""
  | none => ¬ (s.group = "oneshot" ∨ s.group = "train")

theorem bodyCore_fst (mods : List RecipeModifier) :
    (bodyCore mods).map Prod.fst =
      (firstSeenKeys (fun m => m.group) mods).map (fun g => g ++ "_modifiers") := by
  unfold bodyCore
  rw [List.map_map]
  rfl

theorem aGet?_bodyCore_none (mods : List RecipeModifier) (k : String)
    (hk : ∀ g : String, g ++ "_modifiers" ≠ k) : aGet? (bodyCore mods) k = none := by
  apply aGet?_eq_none_of_not_mem
  rw [bodyCore_fst]
  intro hc
  obtain ⟨g, _, heq⟩ := List.mem_map.mp hc
  exact hk g heq

/-- Under unique `(group, type)` pairs, a serialized stage body is the
regrouped modifier block followed by the optional `run_type` entry. -/
theorem stageBody_spec (s : RecipeStage)
    (huniq : (s.modifiers.map (fun m => (m.group, m.type))).Nodup) :
    stageBody s = bodyCore s.modifiers ++ runTypePart s := by
  have hsd : (get_yaml_serializable_stage_dict s.modifiers).map
      (fun gi => (gi.1, Val.vDict gi.2)) = bodyCore s.modifiers := by
    rw [sdb_spec s.modifiers huniq, List.map_map, firstSeenKeys_suffix,
      List.map_map]
    apply List.map_congr_left
    intro g _
    simp only [Function.comp]
    rw [filter_group_append]
  have hfresh : aGet? (bodyCore s.modifiers) "run_type" = none :=
    aGet?_bodyCore_none s.modifiers "run_type"
      (fun g => append_ne_of_not_suffix (by decide) g)
  cases hrt : s.run_type with
  | none => simp only [stageBody, hrt, hsd, runTypePart, List.append_nil]
  | some rt =>
    by_cases hrt0 : rt = ""
    · simp only [stageBody, hrt, if_pos hrt0, hsd, runTypePart, List.append_nil]
    · simp only [stageBody, hrt, if_neg hrt0, hsd, runTypePart]
      exact aInsert_append_of_not_mem _ _ _ hfresh

theorem topPart_fst (r : Recipe) (k : String)
    (hk : k ∈ (topPart r).map Prod.fst) : k = "version" ∨ k = "args" := by
  unfold topPart at hk
  rw [List.map_append, List.mem_append] at hk
  rcases hk with h | h
  · left
    cases hv : r.version with
    | none => rw [hv] at h; simp at h
    | some v =>
      rw [hv] at h
      by_cases h0 : v = ""
      · simp [h0] at h
      · simp only [h0] at h
        simpa [h0] using h
  · right
    by_cases hA : r.args.isEmpty
    · rw [if_pos hA] at h; simp at h
    · rw [if_neg hA] at h; simpa using h

/-- With pairwise-distinct stage groups, the serialized dict is the
recipe head followed by one `"<group>_stage"` entry per stage, in stage
order, each holding that stage's body. -/
theorem getYamlDict_spec (r : Recipe)
    (h1 : (r.stages.map RecipeStage.group).Nodup) :
    Recipe.getYamlDict r =
      topPart r ++ r.stages.map
        (fun s => (s.group ++ "_stage", Val.vDict (stageBody s))) := by
  have hkeys : (r.stages.map (fun s => s.group ++ "_stage")).Nodup := by
    have hinj : Function.Injective (fun g : String => g ++ "_stage") :=
      fun a b h => append_right_cancel_str h
    have h2 := h1.map hinj
    rw [List.map_map] at h2
    exact h2
  have hdict : dictStages r.stages =
      r.stages.map (fun s => (s.group ++ "_stage", [s])) := by
    rw [dictStages_spec]
    unfold firstSeenKeys
    rw [dedupKeys_of_nodup _ hkeys, List.map_map]
    apply List.map_congr_left
    intro s hs
    simp only [Function.comp]
    rw [filter_key_singleton (fun s => s.group ++ "_stage") r.stages hkeys s hs]
  have hemit : emitStages (r.stages.map (fun s => (s.group ++ "_stage", [s]))) =
      r.stages.map (fun s => (s.group ++ "_stage", Val.vDict (stageBody s))) := by
    unfold emitStages
    rw [List.map_map]
    have hcongr : r.stages.map ((fun nsl : String × List RecipeStage =>
          ((List.range nsl.2.length).zip nsl.2).map (fun is =>
            (if nsl.2.length > 1 then nsl.1 ++ "_" ++ toString is.1 else nsl.1,
             Val.vDict (stageBody is.2)))) ∘ (fun s => (s.group ++ "_stage", [s]))) =
        r.stages.map (fun s => [(s.group ++ "_stage", Val.vDict (stageBody s))]) := by
      apply List.map_congr_left
      intro s _
      rfl
    rw [hcongr, flatten_map_singleton]
  show (emitStages (dictStages r.stages)).foldl
      (fun t kv => aInsert t kv.1 kv.2) (topPart r) = _
  rw [hdict, hemit]
  apply foldl_aInsert_fresh
  · rw [List.map_map]
    exact hkeys
  · intro k hk
    rw [List.map_map] at hk
    obtain ⟨s, _, heq⟩ := List.mem_map.mp hk
    apply aGet?_eq_none_of_not_mem
    intro hc
    rcases topPart_fst r k hc with hv | hv
    · exact append_ne_of_not_suffix (s := "_stage") (by decide) s.group (heq.trans hv)
    · exact append_ne_of_not_suffix (s := "_stage") (by decide) s.group (heq.trans hv)

theorem mem_runTypePart (s : RecipeStage) (kv : String × Val)
    (h : kv ∈ runTypePart s) : kv.1 = "run_type" := by
  unfold runTypePart at h
  cases hrt : s.run_type with
  | none => rw [hrt] at h; simp at h
  | some rt =>
    rw [hrt] at h
    by_cases h0 : rt = ""
    · simp [h0] at h
    · simp [h0] at h
      rw [h]

theorem aGet?_runTypePart (s : RecipeStage) (k : String) (hk : k ≠ "run_type") :
    aGet? (runTypePart s) k = none := by
  apply aGet?_eq_none_of_not_mem
  intro hc
  obtain ⟨kv, hkv, heq⟩ := List.mem_map.mp hc
  exact hk (heq ▸ mem_runTypePart s kv hkv)

theorem mem_bodyCore (mods : List RecipeModifier) (kv : String × Val)
    (h : kv ∈ bodyCore mods) :
    ∃ g, kv = (g ++ "_modifiers", Val.vDict ((mods.filter
      (fun m => m.group == g)).map (fun m => (m.type, Val.vDict m.args)))) := by
  unfold bodyCore at h
  obtain ⟨g, _, heq⟩ := List.mem_map.mp h
  exact ⟨g, heq.symm⟩

theorem sDropRight_modifiers (g : String) : sDropRight (g ++ "_modifiers") 10 = g := by
  have h := sDropRight_append g "_modifiers"
  have h10 : ("_modifiers" : String).data.length = 10 := by decide
  rw [h10] at h
  exact h

theorem sDropRight_stage (g : String) : sDropRight (g ++ "_stage") 6 = g := by
  have h := sDropRight_append g "_stage"
  have h6 : ("_stage" : String).data.length = 6 := by decide
  rw [h6] at h
  exact h

theorem rawModifier_shape (t : String) (a : Val) (g : String) (ht : t ≠ "group") :
    rawModifier t a g = Val.vDict [(t, a), ("group", Val.vStr g)] := by
  unfold rawModifier
  simp [aInsert, ht]

/-- Validation inverts the raw-modifier encoding, modifier by modifier,
as long as no modifier's type name is the reserved key `group`. -/
theorem validateModifiers_map_ok (ms : List RecipeModifier)
    (hng : ∀ m ∈ ms, m.type ≠ "group") :
    validateModifiers (ms.map
      (fun m => rawModifier m.type (Val.vDict m.args) m.group)) = .ok ms := by
  induction ms with
  | nil => rfl
  | cons m rest ih =>
    have hm : validateModifier (rawModifier m.type (Val.vDict m.args) m.group) =
        .ok ⟨m.type, m.group, m.args⟩ := by
      rw [rawModifier_shape m.type (Val.vDict m.args) m.group
        (hng m (List.mem_cons_self _ _))]
      rfl
    simp only [List.map_cons, validateModifiers, hm,
      ih (fun m' hm' => hng m' (List.mem_cons_of_mem _ hm'))]

/-- Validating the stage dict that `remap_stages` rebuilds from a
serialized stage recovers the stage exactly, under the canonicity
hypotheses: unique `(group, type)` pairs, no modifier type named
`group`, group-contiguous modifiers, and a consistent run type. -/
theorem validateStage_roundtrip (s : RecipeStage)
    (huniq : (s.modifiers.map (fun m => (m.group, m.type))).Nodup)
    (hng : ∀ m ∈ s.modifiers, m.type ≠ "group")
    (hcontig : regroupMods s.modifiers = s.modifiers)
    (hrun : runTypeOK s) :
    validateStage (Val.vDict (aInsert (stageBody s) "group" (Val.vStr s.group)))
      = .ok s := by
  have hgfresh : aGet? (stageBody s) "group" = none := by
    rw [stageBody_spec s huniq, aGet?_append,
      aGet?_bodyCore_none s.modifiers "group"
        (fun g => append_ne_of_not_suffix (by decide) g),
      aGet?_runTypePart s "group" (by decide)]
  have hbody : aInsert (stageBody s) "group" (Val.vStr s.group) =
      bodyCore s.modifiers ++ runTypePart s ++ [("group", Val.vStr s.group)] := by
    rw [aInsert_append_of_not_mem _ _ _ hgfresh, stageBody_spec s huniq]
  have hGroup : aGet? (bodyCore s.modifiers ++ runTypePart s
      ++ [("group", Val.vStr s.group)]) "group" = some (Val.vStr s.group) := by
    rw [aGet?_append, aGet?_append,
      aGet?_bodyCore_none s.modifiers "group"
        (fun g => append_ne_of_not_suffix (by decide) g),
      aGet?_runTypePart s "group" (by decide)]
    simp [aGet?]
  have hMods : aGet? (bodyCore s.modifiers ++ runTypePart s
      ++ [("group", Val.vStr s.group)]) "modifiers" = none := by
    rw [aGet?_append, aGet?_append,
      aGet?_bodyCore_none s.modifiers "modifiers"
        (fun g => append_ne_of_not_suffix (by decide) g),
      aGet?_runTypePart s "modifiers" (by decide)]
    simp [aGet?]
  have hgood : ∀ kv ∈ bodyCore s.modifiers ++ runTypePart s
      ++ [("group", Val.vStr s.group)],
      sEndsWith kv.1 "_modifiers" = true → isDict kv.2 = true := by
    intro kv hkv hE
    rcases List.mem_append.mp hkv with hkv | hkv
    · rcases List.mem_append.mp hkv with hkv | hkv
      · obtain ⟨g, heq⟩ := mem_bodyCore s.modifiers kv hkv
        rw [heq]
        rfl
      · have h1 := mem_runTypePart s kv hkv
        rw [h1] at hE
        exact absurd hE (by decide)
    · rw [List.mem_singleton] at hkv
      rw [hkv] at hE
      have hE' : sEndsWith "group" "_modifiers" = true := hE
      exact absurd hE' (by decide)
  have hloop := edm_loop_ok_of_good _ hgood
  have hfilterCore : (bodyCore s.modifiers).filter
      (fun kv => sEndsWith kv.1 "_modifiers") = bodyCore s.modifiers := by
    apply List.filter_eq_self.mpr
    intro kv hkv
    obtain ⟨g, heq⟩ := mem_bodyCore s.modifiers kv hkv
    rw [heq]
    exact sEndsWith_append_self g "_modifiers"
  have hfilterRun : (runTypePart s).filter
      (fun kv => sEndsWith kv.1 "_modifiers") = [] := by
    apply List.filter_eq_nil_iff.mpr
    intro kv hkv
    rw [mem_runTypePart s kv hkv]
    decide
  have hfilterGrp : ([("group", Val.vStr s.group)] : List (String × Val)).filter
      (fun kv => sEndsWith kv.1 "_modifiers") = [] := by
    have hx : sEndsWith "group" "_modifiers" = false := by decide
    simp [List.filter_cons, hx]
  have hspec : modsLoopSpec (bodyCore s.modifiers ++ runTypePart s
      ++ [("group", Val.vStr s.group)]) =
      s.modifiers.map (fun m => rawModifier m.type (Val.vDict m.args) m.group) := by
    unfold modsLoopSpec
    rw [List.filter_append, List.filter_append, hfilterCore, hfilterRun,
      hfilterGrp, List.append_nil, List.append_nil]
    unfold bodyCore
    rw [List.map_map]
    have hmapg : (firstSeenKeys (fun m => m.group) s.modifiers).map
        ((fun kv : String × Val =>
            modsOfEntries (dictEntries kv.2) (sDropRight kv.1 10)) ∘
          (fun g => (g ++ "_modifiers", Val.vDict ((s.modifiers.filter
            (fun m => m.group == g)).map
              (fun m => (m.type, Val.vDict m.args)))))) =
        (firstSeenKeys (fun m => m.group) s.modifiers).map
          (fun g => (s.modifiers.filter (fun m => m.group == g)).map
            (fun m => rawModifier m.type (Val.vDict m.args) m.group)) := by
      apply List.map_congr_left
      intro g _
      simp only [Function.comp, dictEntries, sDropRight_modifiers]
      unfold modsOfEntries
      rw [List.map_map]
      apply List.map_congr_left
      intro m hm
      have hmg : m.group = g := by simpa using (List.mem_filter.mp hm).2
      simp only [Function.comp]
      rw [hmg]
    rw [hmapg]
    rw [show (fun g => (s.modifiers.filter (fun m => m.group == g)).map
          (fun m => rawModifier m.type (Val.vDict m.args) m.group)) =
        (List.map (fun m => rawModifier m.type (Val.vDict m.args) m.group)) ∘
          (fun g => s.modifiers.filter (fun m => m.group == g)) from rfl]
    rw [← List.map_map, ← List.map_flatten]
    rw [show ((firstSeenKeys (fun m => m.group) s.modifiers).map
        (fun g => s.modifiers.filter (fun m => m.group == g))).flatten =
        regroupMods s.modifiers from rfl]
    rw [hcontig]
  have hrest : (modsLoopKeys (bodyCore s.modifiers ++ runTypePart s
      ++ [("group", Val.vStr s.group)])).foldl aErase
      (bodyCore s.modifiers ++ runTypePart s ++ [("group", Val.vStr s.group)]) =
      runTypePart s ++ [("group", Val.vStr s.group)] := by
    rw [foldl_aErase_eq_filter]
    have hkeys : modsLoopKeys (bodyCore s.modifiers ++ runTypePart s
        ++ [("group", Val.vStr s.group)]) = (bodyCore s.modifiers).map Prod.fst := by
      unfold modsLoopKeys
      rw [List.filter_append, List.filter_append, hfilterCore, hfilterRun,
        hfilterGrp, List.append_nil, List.append_nil]
    rw [hkeys, List.filter_append, List.filter_append]
    have hA : (bodyCore s.modifiers).filter
        (fun kv => !(decide (kv.1 ∈ (bodyCore s.modifiers).map Prod.fst))) = [] := by
      apply List.filter_eq_nil_iff.mpr
      intro kv hkv
      simp [List.mem_map_of_mem Prod.fst hkv]
    have hB : (runTypePart s).filter
        (fun kv => !(decide (kv.1 ∈ (bodyCore s.modifiers).map Prod.fst)))
        = runTypePart s := by
      apply List.filter_eq_self.mpr
      intro kv hkv
      have h1 := mem_runTypePart s kv hkv
      have h2 : kv.1 ∉ (bodyCore s.modifiers).map Prod.fst := by
        rw [h1, bodyCore_fst]
        intro hc
        obtain ⟨g, _, heq⟩ := List.mem_map.mp hc
        exact append_ne_of_not_suffix (by decide) g heq
      simp [h2]
    have hC : ([("group", Val.vStr s.group)] : List (String × Val)).filter
        (fun kv => !(decide (kv.1 ∈ (bodyCore s.modifiers).map Prod.fst)))
        = [("group", Val.vStr s.group)] := by
      apply List.filter_eq_self.mpr
      intro kv hkv
      rw [List.mem_singleton] at hkv
      have h1 : kv.1 = "group" := by rw [hkv]
      have h2 : kv.1 ∉ (bodyCore s.modifiers).map Prod.fst := by
        rw [h1, bodyCore_fst]
        intro hc
        obtain ⟨g, _, heq⟩ := List.mem_map.mp hc
        exact append_ne_of_not_suffix (by decide) g heq
      simp [h2]
    rw [hA, hB, hC, List.nil_append]
  have hbare : bareModifiersStep (bodyCore s.modifiers ++ runTypePart s
      ++ [("group", Val.vStr s.group)]) = .ok ([], []) := by
    unfold bareModifiersStep
    rw [hMods]
  have hedm : extract_dict_modifiers (bodyCore s.modifiers ++ runTypePart s
      ++ [("group", Val.vStr s.group)]) =
      .ok (s.modifiers.map (fun m => rawModifier m.type (Val.vDict m.args) m.group),
           runTypePart s ++ [("group", Val.vStr s.group)]) := by
    simp only [extract_dict_modifiers, hbare, hloop, List.nil_append, hspec, hrest]
  have hms : stageModsSource (bodyCore s.modifiers ++ runTypePart s
      ++ [("group", Val.vStr s.group)]) =
      .ok (s.modifiers.map (fun m => rawModifier m.type (Val.vDict m.args) m.group),
           runTypePart s ++ [("group", Val.vStr s.group)]) := by
    unfold stageModsSource
    rw [hMods]
    exact hedm
  have hrt : stageRunType (runTypePart s ++ [("group", Val.vStr s.group)]) s.group
      = s.run_type := by
    unfold runTypeOK at hrun
    split at hrun
    next rt hsrt =>
      have hpart : runTypePart s = [("run_type", Val.vStr rt)] := by
        unfold runTypePart
        rw [hsrt]
        simp [hrun]
      rw [hpart, hsrt]
      unfold stageRunType
      simp [aGet?]
    next hsrt =>
      have hpart : runTypePart s = [] := by
        unfold runTypePart
        rw [hsrt]
      rw [hpart, hsrt]
      unfold stageRunType
      simp [aGet?, hrun]
  have hvm := validateModifiers_map_ok s.modifiers hng
  simp only [hbody, validateStage, hGroup, hms, hvm, hrt]

theorem serial_key_cases (r : Recipe) (k : String)
    (hk : k ∈ (topPart r ++ r.stages.map
      (fun s => (s.group ++ "_stage", Val.vDict (stageBody s)))).map Prod.fst) :
    k = "version" ∨ k = "args" ∨ ∃ s ∈ r.stages, k = s.group ++ "_stage" := by
  rw [List.map_append, List.mem_append] at hk
  rcases hk with h | h
  · rcases topPart_fst r k h with h | h
    · exact Or.inl h
    · exact Or.inr (Or.inl h)
  · rw [List.map_map] at h
    obtain ⟨s, hs, heq⟩ := List.mem_map.mp h
    exact Or.inr (Or.inr ⟨s, hs, heq.symm⟩)

theorem validateStages_map_ok (ss : List RecipeStage)
    (h : ∀ s ∈ ss, validateStage (Val.vDict (aInsert (stageBody s) "group"
      (Val.vStr s.group))) = .ok s) :
    validateStages (ss.map (fun s => Val.vDict (aInsert (stageBody s) "group"
      (Val.vStr s.group)))) = .ok ss := by
  induction ss with
  | nil => rfl
  | cons s rest ih =>
    simp only [List.map_cons, validateStages, h s (List.mem_cons_self _ _),
      ih (fun s' hs' => h s' (List.mem_cons_of_mem _ hs'))]

/-- Parsing the serialized dict of a recipe with distinct stage groups:
`remap_stages` rebuilds exactly one stage dict per `"<group>_stage"`
entry, in order, and validating them recovers the stages when each stage
satisfies the per-stage canonicity hypotheses. -/
theorem recipeValidate_serial (r : Recipe)
    (h1 : (r.stages.map RecipeStage.group).Nodup)
    (hstage : ∀ s ∈ r.stages, validateStage (Val.vDict (aInsert (stageBody s)
      "group" (Val.vStr s.group))) = .ok s) :
    ∃ args', recipeValidate (Recipe.getYamlDict r) = .ok ⟨none, args', r.stages⟩ := by
  have hD := getYamlDict_spec r h1
  have hno_mod : aGet? (topPart r ++ r.stages.map
      (fun s => (s.group ++ "_stage", Val.vDict (stageBody s)))) "modifiers"
      = none := by
    apply aGet?_eq_none_of_not_mem
    intro hc
    rcases serial_key_cases r "modifiers" hc with h | h | ⟨s, _, h⟩
    · exact absurd h (by decide)
    · exact absurd h (by decide)
    · exact append_ne_of_not_suffix (by decide) s.group h.symm
  have hno_stages : aGet? (topPart r ++ r.stages.map
      (fun s => (s.group ++ "_stage", Val.vDict (stageBody s)))) "stages"
      = none := by
    apply aGet?_eq_none_of_not_mem
    intro hc
    rcases serial_key_cases r "stages" hc with h | h | ⟨s, _, h⟩
    · exact absurd h (by decide)
    · exact absurd h (by decide)
    · exact append_ne_of_not_suffix (by decide) s.group h.symm
  have hclean : ∀ kv ∈ topPart r ++ r.stages.map
      (fun s => (s.group ++ "_stage", Val.vDict (stageBody s))),
      sEndsWith kv.1 "_modifiers" = false := by
    intro kv hkv
    rcases List.mem_append.mp hkv with h | h
    · rcases topPart_fst r kv.1 (List.mem_map_of_mem Prod.fst h) with h1 | h1 <;>
        rw [h1] <;> decide
    · obtain ⟨s, _, heq⟩ := List.mem_map.mp h
      have h1 : kv.1 = s.group ++ "_stage" := by rw [← heq]
      rw [h1]
      exact not_stage_and_modifiers _ (sEndsWith_append_self s.group "_stage")
  have hgoodD : ∀ kv ∈ topPart r ++ r.stages.map
      (fun s => (s.group ++ "_stage", Val.vDict (stageBody s))),
      sEndsWith kv.1 "_stage" = true → isDict kv.2 = true := by
    intro kv hkv hE
    rcases List.mem_append.mp hkv with h | h
    · rcases topPart_fst r kv.1 (List.mem_map_of_mem Prod.fst h) with h1 | h1 <;>
        rw [h1] at hE
      · exact absurd hE (by decide)
      · exact absurd hE (by decide)
    · obtain ⟨s, _, heq⟩ := List.mem_map.mp h
      have h2 : kv.2 = Val.vDict (stageBody s) := by rw [← heq]
      rw [h2]
      rfl
  have hedmD := edm_ok_of_clean _ hclean hno_mod
  have hsksD := sks_ok_of_none _ hno_stages
  have hsslD := ssl_ok_of_good _ hgoodD
  have hsufspec : suffixStagesSpec (topPart r ++ r.stages.map
      (fun s => (s.group ++ "_stage", Val.vDict (stageBody s)))) =
      r.stages.map (fun s => Val.vDict (aInsert (stageBody s) "group"
        (Val.vStr s.group))) := by
    unfold suffixStagesSpec
    rw [List.filter_append]
    have hfT : (topPart r).filter (fun kv => sEndsWith kv.1 "_stage") = [] := by
      apply List.filter_eq_nil_iff.mpr
      intro kv hkv
      rcases topPart_fst r kv.1 (List.mem_map_of_mem Prod.fst hkv) with h1 | h1 <;>
        rw [h1] <;> decide
    have hfS : (r.stages.map (fun s => (s.group ++ "_stage",
        Val.vDict (stageBody s)))).filter (fun kv => sEndsWith kv.1 "_stage") =
        r.stages.map (fun s => (s.group ++ "_stage", Val.vDict (stageBody s))) := by
      apply List.filter_eq_self.mpr
      intro kv hkv
      obtain ⟨s, _, heq⟩ := List.mem_map.mp hkv
      have h1 : kv.1 = s.group ++ "_stage" := by rw [← heq]
      rw [h1]
      exact sEndsWith_append_self s.group "_stage"
    rw [hfT, hfS, List.nil_append, List.map_map]
    apply List.map_congr_left
    intro s _
    simp only [Function.comp, dictEntries, sDropRight_stage]
  have heds : extract_dict_stages (topPart r ++ r.stages.map
      (fun s => (s.group ++ "_stage", Val.vDict (stageBody s)))) =
      .ok (suffixStagesSpec (topPart r ++ r.stages.map
            (fun s => (s.group ++ "_stage", Val.vDict (stageBody s)))),
           (suffixStageKeys (topPart r ++ r.stages.map
            (fun s => (s.group ++ "_stage", Val.vDict (stageBody s))))).foldl aErase
           (topPart r ++ r.stages.map
            (fun s => (s.group ++ "_stage", Val.vDict (stageBody s))))) := by
    simp only [extract_dict_stages, hedmD, hsksD, hsslD, List.isEmpty_nil,
      if_true, List.nil_append]
  have hremap : remap_stages (topPart r ++ r.stages.map
      (fun s => (s.group ++ "_stage", Val.vDict (stageBody s)))) =
      .ok ⟨suffixStagesSpec (topPart r ++ r.stages.map
            (fun s => (s.group ++ "_stage", Val.vDict (stageBody s)))),
           (suffixStageKeys (topPart r ++ r.stages.map
            (fun s => (s.group ++ "_stage", Val.vDict (stageBody s))))).foldl aErase
           (topPart r ++ r.stages.map
            (fun s => (s.group ++ "_stage", Val.vDict (stageBody s))))⟩ := by
    simp only [remap_stages, hedmD, heds, List.isEmpty_nil, if_true,
      List.nil_append]
  have hvs : validateStages (suffixStagesSpec (topPart r ++ r.stages.map
      (fun s => (s.group ++ "_stage", Val.vDict (stageBody s))))) = .ok r.stages := by
    rw [hsufspec]
    exact validateStages_map_ok r.stages hstage
  refine ⟨(suffixStageKeys (topPart r ++ r.stages.map
      (fun s => (s.group ++ "_stage", Val.vDict (stageBody s))))).foldl aErase
      (topPart r ++ r.stages.map
        (fun s => (s.group ++ "_stage", Val.vDict (stageBody s)))), ?_⟩
  rw [hD]
  simp only [recipeValidate, hremap, hvs]

/-- C1, counterexample: a Recipe with two stages both named `s1` — each
stage with unique `(group, type)` modifier pairs, as the claim requires —
serializes under the keys `s1_stage_0`/`s1_stage_1`; those keys do not
end in `_stage`, so parsing the serialization puts them into `args` and
returns a Recipe with NO stages: stage order and group names are not
reproduced. -/
theorem c1_counterexample :
    recipeValidate (Recipe.getYamlDict
        ⟨none, [], [⟨"s1", none, [⟨"M1", "g1", []⟩]⟩,
                    ⟨"s1", none, [⟨"M2", "g1", []⟩]⟩]⟩) =
      .ok ⟨none,
           [("s1_stage_0",
             Val.vDict [("g1_modifiers", Val.vDict [("M1", Val.vDict [])])]),
            ("s1_stage_1",
             Val.vDict [("g1_modifiers", Val.vDict [("M2", Val.vDict [])])])],
           []⟩ ∧
    (Recipe.mk none [] [⟨"s1", none, [⟨"M1", "g1", []⟩]⟩,
        ⟨"s1", none, [⟨"M2", "g1", []⟩]⟩]).stages.map RecipeStage.group
      = ["s1", "s1"] :=
  ⟨rfl, rfl⟩

/-- C1 (amended): for a canonical Recipe — pairwise-distinct stage group
names, per-stage unique `(group, type)` modifier pairs, no modifier type
named `group`, group-contiguous modifier lists (fixed by first-seen-group
regrouping), and consistent run types (a stored run type is truthy; a
stage without one is not named `oneshot`/`train`) — parsing the YAML
serialization succeeds and reproduces the stage list exactly: stage
order, group names, run types, and modifier type/group/args content. -/
theorem c1_roundtrip (r : Recipe)
    (h1 : (r.stages.map RecipeStage.group).Nodup)
    (h2 : ∀ s ∈ r.stages, (s.modifiers.map (fun m => (m.group, m.type))).Nodup)
    (h3 : ∀ s ∈ r.stages, ∀ m ∈ s.modifiers, m.type ≠ "group")
    (h4 : ∀ s ∈ r.stages, regroupMods s.modifiers = s.modifiers)
    (h5 : ∀ s ∈ r.stages, runTypeOK s) :
    ∃ r', recipeValidate (Recipe.getYamlDict r) = .ok r' ∧
      r'.stages = r.stages := by
  obtain ⟨args', hargs⟩ := recipeValidate_serial r h1
    (fun s hs => validateStage_roundtrip s (h2 s hs) (h3 s hs) (h4 s hs) (h5 s hs))
  exact ⟨⟨none, args', r.stages⟩, hargs, rfl⟩

theorem c1_witness :
    ∃ r', recipeValidate (Recipe.getYamlDict
        ⟨none, [], [⟨"s1", some "train", [⟨"M1", "g1", []⟩]⟩]⟩) = .ok r' ∧
      r'.stages = (Recipe.mk none []
        [⟨"s1", some "train", [⟨"M1", "g1", []⟩]⟩]).stages :=
  c1_roundtrip ⟨none, [], [⟨"s1", some "train", [⟨"M1", "g1", []⟩]⟩]⟩
    (by decide)
    (fun s hs => by
      rw [List.mem_singleton] at hs
      subst hs
      decide)
    (fun s hs => by
      rw [List.mem_singleton] at hs
      subst hs
      intro m hm
      rw [List.mem_singleton] at hm
      subst hm
      decide)
    (fun s hs => by
      rw [List.mem_singleton] at hs
      subst hs
      rfl)
    (fun s hs => by
      rw [List.mem_singleton] at hs
      subst hs
      simp [runTypeOK])
